import Mathlib

/-!
Verification development for the CloudPhinder cloud-finding code
(src/CloudPhinder.py).  The grouping engine `ParticleGroups`, its energy
bookkeeping (`InteractionEnergy`, `EnergyIncrement`, `KE_Increment`,
`BruteForcePotential2`), the duplicate-position perturbation loop of
`CloudPhind`, and the bound-group extraction pass are embedded shallowly
over exact rationals.

External numeric routines that the source imports from third-party
libraries (pykdgrav's spline kernel `PotentialKernel`, and the square
root used for inter-particle distances) are abstracted as parameters
`pkf` (mapping squared distance and smoothing length to the softened
kernel value) and `rinv` (mapping a squared distance to the inverse
distance); none of the verified properties depend on their values.
The pykdgrav tree potential is modelled from the spec (section 4.4):
the tree built over a source snapshot answers potentials due to that
snapshot, so the model evaluates it as the softened direct sum over the
snapshot members.  Distances that the scan only ever sorts or compares
are represented by their squares, which is order-isomorphic.
-/

/-- Triple of rationals, a 3-vector (particle position / velocity). -/
abbrev Pos : Type := ℚ × ℚ × ℚ

def padd (a b : Pos) : Pos := (a.1 + b.1, a.2.1 + b.2.1, a.2.2 + b.2.2)

def psub (a b : Pos) : Pos := (a.1 - b.1, a.2.1 - b.2.1, a.2.2 - b.2.2)

def psmul (c : ℚ) (a : Pos) : Pos := (c * a.1, c * a.2.1, c * a.2.2)

/-- Squared Euclidean norm of a 3-vector. -/
def normSq (a : Pos) : ℚ := a.1 * a.1 + a.2.1 * a.2.1 + a.2.2 * a.2.2

/-- Squared distance between two points (the code's `dx*dx+dy*dy+dz*dz`). -/
def d2 (a b : Pos) : ℚ := normSq (psub a b)

/-- Pointwise update of a map (python dict/array entry assignment). -/
def updf {α β : Type} [DecidableEq α] (f : α → β) (k : α) (v : β) : α → β :=
  fun j => if j = k then v else f j

/-- Bulk update of an array at a list of indices (numpy fancy assignment,
source lines 307-308 and 326). -/
def updMany {β : Type} (f : ℕ → β) (ks : List ℕ) (v : β) : ℕ → β :=
  fun j => if j ∈ ks then v else f j

/-- Particle arrays handed to `ParticleGroups` (read-only during the scan):
positions, masses, smoothing lengths, internal energies, velocities,
densities, for `n` particles indexed by naturals. -/
structure PData where
  n : ℕ
  x : ℕ → Pos
  v : ℕ → Pos
  m : ℕ → ℚ
  h : ℕ → ℚ
  u : ℕ → ℚ
  rho : ℕ → ℚ

/-- The gravitational constant hardcoded at every evaluation call site of the
source (`G=4.301e4`, lines 88, 90, 92, 104, 106, 109, 146, 148, 168). -/
def gravG : ℚ := 43010

/-- Contribution of one source particle (position `xs`, mass `ms`, smoothing
length `hs`) to the potential at target point `xt`, before the global `G`
factor: source lines 69-76.  `r < h[j]` is expressed on squared distances
(`0 < hs` and `r2 < hs*hs`), which is equivalent for the nonnegative `r`;
`pkf` stands for pykdgrav's `PotentialKernel(r, h)` as a function of the
squared distance, `rinv` for `1/r` as a function of the squared distance. -/
def srcContrib (pkf : ℚ → ℚ → ℚ) (rinv : ℚ → ℚ)
    (xt xs : Pos) (ms hs : ℚ) : ℚ :=
  let r2 := d2 xt xs
  if 0 < hs ∧ r2 < hs * hs then ms * pkf r2 hs
  else if 0 < r2 then -(ms * rinv r2) else 0

/-- Embeds `BruteForcePotential2` (source lines 63-77), evaluated at a single target
point: `G` times the summed per-source contributions. -/
def bruteForcePotential2 (G : ℚ) (pkf : ℚ → ℚ → ℚ) (rinv : ℚ → ℚ)
    (P : PData) (xt : Pos) (srcs : List ℕ) : ℚ :=
  G * (srcs.map (fun j => srcContrib pkf rinv xt (P.x j) (P.m j) (P.h j))).sum

/-- Modelled from the spec (section 4.4): the pykdgrav tree potential
(`GetPotential` / `PotentialWalk`, per unit `G`) answers the potential due to
the source snapshot the tree was built over; the approximate multipole walk is
modelled as the exact softened direct sum over the snapshot members. -/
def treeWalkPhi (pkf : ℚ → ℚ → ℚ) (rinv : ℚ → ℚ)
    (P : PData) (xt : Pos) (snap : List ℕ) : ℚ :=
  (snap.map (fun j => srcContrib pkf rinv xt (P.x j) (P.m j) (P.h j))).sum

/-- Embeds `InteractionEnergy` (source lines 95-111): mutual interaction potential
energy of group `gB` in the field of group `gA`.  If `gA` has a tree
(`treeA = some snap`), the potential at each member of `gB` is the tree answer
plus the brute-force answer over `gA`'s pending list `pendA`; otherwise it is
the brute-force answer over all of `gA`.  (The source also receives `group_b`'s
tree and pending list and never uses them.)  `G` is hardcoded to `gravG` at
every call inside, as in the source. -/
def interactionEnergy (pkf : ℚ → ℚ → ℚ) (rinv : ℚ → ℚ) (P : PData)
    (gA : List ℕ) (treeA : Option (List ℕ)) (pendA : List ℕ)
    (gB : List ℕ) : ℚ :=
  match treeA with
  | some snap =>
      (gB.map (fun b =>
        P.m b * (gravG * treeWalkPhi pkf rinv P (P.x b) snap
                 + bruteForcePotential2 gravG pkf rinv P (P.x b) pendA))).sum
  | none =>
      (gB.map (fun b =>
        P.m b * bruteForcePotential2 gravG pkf rinv P (P.x b) gA)).sum

/-- Embeds `EnergyIncrement` (source lines 135-151): energy added when particle `i`
joins a group of mass `M`, COM velocity `vcom`, tree `tree` and pending list
`pend`.  The potential at `i` is brute-forced over the pending list (when
nonempty) plus `G` times the tree walk (when a tree exists). -/
def energyIncrement (pkf : ℚ → ℚ → ℚ) (rinv : ℚ → ℚ) (P : PData)
    (i : ℕ) (M : ℚ) (vcom : Pos)
    (tree : Option (List ℕ)) (pend : List ℕ) : ℚ :=
  let phi1 := if pend ≠ [] then bruteForcePotential2 gravG pkf rinv P (P.x i) pend else 0
  let phi2 := match tree with
    | some snap => gravG * treeWalkPhi pkf rinv P (P.x i) snap
    | none => 0
  let vSqr := normSq (psub (P.v i) vcom)
  let mu := P.m i * M / (P.m i + M)
  1/2 * mu * vSqr + P.m i * P.u i + P.m i * (phi1 + phi2)

/-- Embeds `KE_Increment` (source lines 153-161). -/
def keIncrement (P : PData) (i : ℕ) (vcom : Pos) (mtot : ℚ) : ℚ :=
  let vSqr := normSq (psub (P.v i) vcom)
  let mu := P.m i * mtot / (P.m i + mtot)
  1/2 * mu * vSqr + P.m i * P.u i

/-- The bound test of source lines 305-306 and 323-324:
`abs(2*KE/np.abs(E - KE)) < alpha_crit`, with IEEE float semantics for a zero
denominator: `x/0` is infinite or NaN and compares as not-less-than any finite
`alpha_crit`, so a zero denominator means "not bound". -/
def virBound (ke e alpha : ℚ) : Prop :=
  e - ke ≠ 0 ∧ abs (2 * ke / abs (e - ke)) < alpha

instance (ke e alpha : ℚ) : Decidable (virBound ke e alpha) := by
  unfold virBound; infer_instance

/-- The ranking field: `potential_mode` is `False`, so `phi = -rho`
(source line 181). -/
def phiRank (P : PData) (i : ℕ) : ℚ := -(P.rho i)

/-- The mutable state of the `ParticleGroups` scan: the per-group dictionaries
(keyed by the surviving founder index, a python int) and the three per-particle
assignment arrays.  `gtree` stores, for a live group, either `none` (no tree
yet, python `None`) or the member snapshot the current tree was built over. -/
structure ScanState where
  groups : ℤ → Option (List ℕ)
  psl : ℤ → Option (List ℕ)
  gtree : ℤ → Option (Option (List ℕ))
  genergy : ℤ → Option ℚ
  gke : ℤ → Option ℚ
  com : ℤ → Option Pos
  vcom : ℤ → Option Pos
  masses : ℤ → Option ℚ
  ag : ℕ → ℤ
  abg : ℕ → ℤ
  lag : ℕ → ℤ

/-- Initial scan state: empty dictionaries, all three assignment arrays filled
with the sentinel `-1` (source lines 185-202). -/
def initState : ScanState where
  groups := fun _ => none
  psl := fun _ => none
  gtree := fun _ => none
  genergy := fun _ => none
  gke := fun _ => none
  com := fun _ => none
  vcom := fun _ => none
  masses := fun _ => none
  ag := fun _ => -1
  abg := fun _ => -1
  lag := fun _ => -1

/-- Creation of a brand-new singleton group for particle `i`
(source lines 208-216, repeated verbatim at lines 230-238). -/
def mkSingleton (P : PData) (st : ScanState) (i : ℕ) : ScanState :=
  { st with
    groups := updf st.groups i (some [i])
    gtree := updf st.gtree i (some none)
    ag := updf st.ag i i
    genergy := updf st.genergy i (some (P.m i * P.u i))
    gke := updf st.gke i (some (P.m i * P.u i))
    vcom := updf st.vcom i (some (P.v i))
    com := updf st.com i (some (P.x i))
    masses := updf st.masses i (some (P.m i))
    psl := updf st.psl i (some [i]) }

/-- Assign particle `i` to existing group `g` and append it to the member list
(source lines 241-242, and 301/314 for the merge path's attach of `i`). -/
def attachAssign (st : ScanState) (i : ℕ) (g : ℤ) : ScanState :=
  { st with
    ag := updf st.ag i g
    groups := updf st.groups g (some ((st.groups g).getD [] ++ [i])) }

/-- The `add_to_existing_group` block (source lines 318-333): energy-ledger
increments for the just-appended particle `i`, the post-attach bound test and
recording, mass-weighted COM-velocity blend, mass update, pending-list append
and possible tree rebuild. -/
def addToExisting (pkf : ℚ → ℚ → ℚ) (rinv : ℚ → ℚ) (P : PData)
    (ntree : ℕ) (alpha : ℚ) (st : ScanState) (i : ℕ) : ScanState :=
  let g := st.ag i
  let mgroup := (st.masses g).getD 0
  let vc := (st.vcom g).getD (0, 0, 0)
  let tr := (st.gtree g).getD none
  let pend := (st.psl g).getD []
  let mem := (st.groups g).getD []
  let ke2 := (st.gke g).getD 0 + keIncrement P i vc mgroup
  let e2 := (st.genergy g).getD 0 + energyIncrement pkf rinv P i mgroup vc tr pend
  let st1 := { st with gke := updf st.gke g (some ke2),
                       genergy := updf st.genergy g (some e2) }
  let st2 := if virBound ke2 e2 alpha
    then { st1 with lag := updf st1.lag i (mem.length : ℤ),
                    abg := updMany st1.abg mem g }
    else st1
  let pend2 := pend ++ [i]
  let st3 := { st2 with
    vcom := updf st2.vcom g
      (some (psmul (1 / (P.m i + mgroup)) (padd (psmul (P.m i) (P.v i)) (psmul mgroup vc))))
    masses := updf st2.masses g (some (mgroup + P.m i))
    psl := updf st2.psl g (some pend2) }
  if ntree < pend2.length
  then { st3 with gtree := updf st3.gtree g (some (some mem)),
                  psl := updf st3.psl g (some []) }
  else st3

/-- The saddle-point merge (source lines 255-315, up to and including the
append of `i` at line 314): `gA` absorbs `gB`.  Energy and KE get the two
groups' totals plus the relative-motion term, the energy additionally the
mutual interaction energy; the tree policy of lines 277-295 is applied; COM
and mass are merged; `gB`'s entries are deleted from every dictionary; every
particle assigned to `gB` is relabeled to `gA`; if the merged group is bound,
`largest_assigned_group` and `assigned_bound_group` are stamped for all its
members. -/
def mergeCore (pkf : ℚ → ℚ → ℚ) (rinv : ℚ → ℚ) (P : PData)
    (ntree : ℕ) (alpha : ℚ) (st : ScanState) (i : ℕ) (gA gB : ℤ) : ScanState :=
  let A := (st.groups gA).getD []
  let B := (st.groups gB).getD []
  let ma := (st.masses gA).getD 0
  let mb := (st.masses gB).getD 0
  let xa := (st.com gA).getD (0, 0, 0)
  let xb := (st.com gB).getD (0, 0, 0)
  let va := (st.vcom gA).getD (0, 0, 0)
  let vb := (st.vcom gB).getD (0, 0, 0)
  let AB := A ++ B
  let trA := (st.gtree gA).getD none
  let pendA := (st.psl gA).getD []
  let rel := 1/2 * (ma * mb / (ma + mb)) * normSq (psub va vb)
  let eNew := (st.genergy gA).getD 0 + (st.genergy gB).getD 0 + rel
              + interactionEnergy pkf rinv P A trA pendA B
  let keNew := (st.gke gA).getD 0 + (st.gke gB).getD 0 + rel
  let tp1 : Option (List ℕ) × List ℕ :=
    if ntree < A.length then
      if 512 < B.length then (some AB, [])
      else (trA, pendA ++ B)
    else (trA, AB)
  let tp2 : Option (List ℕ) × List ℕ :=
    if ntree < tp1.2.length then (some AB, []) else tp1
  let comN := psmul (1 / (ma + mb)) (padd (psmul ma xa) (psmul mb xb))
  let vcomN := psmul (1 / (ma + mb)) (padd (psmul ma va) (psmul mb vb))
  let agMid := updf st.ag i gA
  let ag2 := fun j => if agMid j = gB then gA else agMid j
  let bound := virBound keNew eNew alpha
  { groups := updf (updf st.groups gB none) gA (some (AB ++ [i]))
    psl := updf (updf st.psl gB none) gA (some tp2.2)
    gtree := updf (updf st.gtree gB none) gA (some tp2.1)
    genergy := updf (updf st.genergy gB none) gA (some eNew)
    gke := updf (updf st.gke gB none) gA (some keNew)
    com := updf (updf st.com gB none) gA (some comN)
    vcom := updf (updf st.vcom gB none) gA (some vcomN)
    masses := updf (updf st.masses gB none) gA (some (ma + mb))
    ag := ag2
    abg := if bound then updMany st.abg AB gA else st.abg
    lag := if bound then updMany st.lag AB (AB.length : ℤ) else st.lag }

/-- Stable insertion sort of (index, squared-distance) pairs by ascending
distance, embedding the `argsort` of source line 223. -/
def sortPairs (l : List (ℕ × ℚ)) : List (ℕ × ℚ) :=
  List.insertionSort (fun a b => a.2 ≤ b.2) l

/-- One iteration of the scan loop body for particle `i`
(source lines 204-333), over neighbor tables `ngb` (index rows, slot 0 the
particle itself, out-of-range slots holding the sentinel `n`) and `ngbd2`
(the matching squared distances). -/
def scanStep (pkf : ℚ → ℚ → ℚ) (rinv : ℚ → ℚ) (P : PData)
    (ntree : ℕ) (alpha : ℚ)
    (ngb : ℕ → List ℕ) (ngbd2 : ℕ → List ℚ)
    (st : ScanState) (i : ℕ) : ScanState :=
  if (ngb i).any (fun s => P.n - 1 < s) then mkSingleton P st i
  else
    let pairs := ((ngb i).tail.zip (ngbd2 i).tail).filter
      (fun p => phiRank P p.1 < phiRank P i)
    let ngbLower := (sortPairs pairs).map Prod.fst
    match ngbLower with
    | [] => mkSingleton P st i
    | [a] => addToExisting pkf rinv P ntree alpha (attachAssign st i (st.ag a)) i
    | a :: b :: _ =>
      if st.ag a = st.ag b then
        addToExisting pkf rinv P ntree alpha (attachAssign st i (st.ag a)) i
      else
        let ga0 := st.ag a
        let gb0 := st.ag b
        let swap := (st.masses ga0).getD 0 < (st.masses gb0).getD 0
        let gA := if swap then gb0 else ga0
        let gB := if swap then ga0 else gb0
        if gA = gB then attachAssign st i gA
        else addToExisting pkf rinv P ntree alpha
          (mergeCore pkf rinv P ntree alpha st i gA gB) i

/-- State of the scan after the first `k` particles have been processed
(the loop of source line 204, iterated up to index `k-1`). -/
def scanUpto (pkf : ℚ → ℚ → ℚ) (rinv : ℚ → ℚ) (P : PData)
    (ntree : ℕ) (alpha : ℚ)
    (ngb : ℕ → List ℕ) (ngbd2 : ℕ → List ℚ) : ℕ → ScanState
  | 0 => initState
  | k + 1 => scanStep pkf rinv P ntree alpha ngb ngbd2
      (scanUpto pkf rinv P ntree alpha ngb ngbd2 k) k

/-- The bound-group extraction pass (source lines 337-343). -/
def boundGroupsOf (st : ScanState) (n : ℕ) : ℤ → Option (List ℕ) :=
  (List.range n).foldl
    (fun bg i =>
      let a := st.abg i
      if a < 0 then bg
      else match bg a with
        | some l => updf bg a (some (l ++ [i]))
        | none => updf bg a (some [i]))
    (fun _ => none)

/-- Modelled from the spec (section 4.1, the scipy cKDTree.query contract):
row `i` lists the `k` nearest particle indices to particle `i` by ascending
distance (the particle itself first, at distance 0); slots whose distance
exceeds the maximum search radius hold the out-of-range sentinel `n`.
Distances are compared squared (`ub2` is the squared search radius). -/
def knnRow (P : PData) (k : ℕ) (ub2 : ℚ) (i : ℕ) : List ℕ :=
  let all := (List.range P.n).map (fun j => (j, d2 (P.x i) (P.x j)))
  ((sortPairs all).take k).map (fun p => if p.2 ≤ ub2 then p.1 else P.n)

/-- Modelled from the spec (section 4.1): the squared distances matching
`knnRow`; an out-of-range slot's distance (infinite in the source) is never
consumed by the scan and is represented by `ub2 + 1`. -/
def knnD2Row (P : PData) (k : ℕ) (ub2 : ℚ) (i : ℕ) : List ℚ :=
  let all := (List.range P.n).map (fun j => (j, d2 (P.x i) (P.x j)))
  ((sortPairs all).take k).map (fun p => if p.2 ≤ ub2 then p.2 else ub2 + 1)

/-- Embeds `h.max()` of source line 182 (all smoothing lengths are positive in the
data this runs on, so the 0 seed is inert). -/
def hMax (P : PData) : ℚ := ((List.range P.n).map P.h).foldl max 0

/-- The triple returned by `ParticleGroups` (source line 345). -/
structure PGResult where
  groups : ℤ → Option (List ℕ)
  boundGroups : ℤ → Option (List ℕ)
  ag : ℕ → ℤ

/-- The final scan state of `ParticleGroups` (source lines 171-333): build the
neighbor tables with `min(cluster_ngb, n)` neighbors within radius
`min(rmax, h.max())` (line 182) and run the scan over all particles. -/
def scanFull (pkf : ℚ → ℚ → ℚ) (rinv : ℚ → ℚ) (P : PData)
    (cngb ntree : ℕ) (alpha rmax : ℚ) : ScanState :=
  let kk := min cngb P.n
  let ub := min rmax (hMax P)
  scanUpto pkf rinv P ntree alpha (knnRow P kk (ub * ub)) (knnD2Row P kk (ub * ub)) P.n

/-- Embeds `ParticleGroups` (source lines 171-345): the scan followed by the
bound-group extraction, returning the triple of source line 345. -/
def particleGroupsF (pkf : ℚ → ℚ → ℚ) (rinv : ℚ → ℚ) (P : PData)
    (cngb ntree : ℕ) (alpha rmax : ℚ) : PGResult :=
  let fin := scanFull pkf rinv P cngb ntree alpha rmax
  ⟨fin.groups, boundGroupsOf fin P.n, fin.ag⟩

/-- The `--fuzz`-independent perturbation of `CloudPhind` line 430:
`x *= 1 + normal() * 1e-8`, componentwise, with `r` the random draw. -/
def perturbOnce (r : ℕ → Pos) (x : ℕ → Pos) : ℕ → Pos :=
  fun i =>
    ((x i).1 * (1 + (r i).1 * (1 / 100000000)),
     (x i).2.1 * (1 + (r i).2.1 * (1 / 100000000)),
     (x i).2.2 * (1 + (r i).2.2 * (1 / 100000000)))

/-- Embeds the test `len(np.unique(x, axis=0)) < len(x)` of source line 429: some position
occurs twice among the first `n` particles. -/
def hasDupPos (n : ℕ) (x : ℕ → Pos) : Bool :=
  (List.range n).any (fun i => (List.range i).any (fun j => x j = x i))

/-- The duplicate-position while loop of `CloudPhind` (source lines 429-430),
with the random stream `rs` (draw `rs k` on the `k`-th iteration) made
explicit and a fuel bound standing in for nontermination: `none` means the
loop is still running when the fuel runs out. -/
def dedupPositions (rs : ℕ → ℕ → Pos) (n : ℕ) : ℕ → ℕ → (ℕ → Pos) → Option (ℕ → Pos)
  | _, 0, x => if hasDupPos n x then none else some x
  | k, fuel + 1, x =>
    if hasDupPos n x then dedupPositions rs n (k + 1) fuel (perturbOnce (rs k) x)
    else some x

/-- Embeds `CloudPhind` (source lines 409-445): the float64 cast is the identity on
the exact-rational model; deduplicate positions, then run `ParticleGroups`. -/
def cloudPhindModel (pkf : ℚ → ℚ → ℚ) (rinv : ℚ → ℚ) (rs : ℕ → ℕ → Pos)
    (fuel : ℕ) (P : PData) (cngb ntree : ℕ) (alpha rmax : ℚ) : Option PGResult :=
  match dedupPositions rs P.n 0 fuel P.x with
  | none => none
  | some x2 => some (particleGroupsF pkf rinv { P with x := x2 } cngb ntree alpha rmax)

/-- Modelled from the spec (section 4.2, Attach): the mass-weighted blend of a
group quantity (COM position or velocity) with a newly attached particle. -/
def massBlend (mi : ℚ) (xi : Pos) (M : ℚ) (xg : Pos) : Pos :=
  psmul (1 / (mi + M)) (padd (psmul mi xi) (psmul M xg))

/-- Modelled from the spec (section 4.4: "Gravitational constant is a
configured parameter, applied uniformly"): `EnergyIncrement` with the
gravitational constant taken from the configuration instead of the hardcoded
`4.301e4` of the source. -/
def energyIncrementWithG (G : ℚ) (pkf : ℚ → ℚ → ℚ) (rinv : ℚ → ℚ) (P : PData)
    (i : ℕ) (M : ℚ) (vcom : Pos)
    (tree : Option (List ℕ)) (pend : List ℕ) : ℚ :=
  let phi1 := if pend ≠ [] then bruteForcePotential2 G pkf rinv P (P.x i) pend else 0
  let phi2 := match tree with
    | some snap => G * treeWalkPhi pkf rinv P (P.x i) snap
    | none => 0
  let vSqr := normSq (psub (P.v i) vcom)
  let mu := P.m i * M / (P.m i + M)
  1/2 * mu * vSqr + P.m i * P.u i + P.m i * (phi1 + phi2)

/-- Modelled from the spec (section 4.4): `InteractionEnergy` with a
configured gravitational constant `G` in place of the hardcoded `4.301e4`. -/
def interactionEnergyWithG (G : ℚ) (pkf : ℚ → ℚ → ℚ) (rinv : ℚ → ℚ) (P : PData)
    (gA : List ℕ) (treeA : Option (List ℕ)) (pendA : List ℕ)
    (gB : List ℕ) : ℚ :=
  match treeA with
  | some snap =>
      (gB.map (fun b =>
        P.m b * (G * treeWalkPhi pkf rinv P (P.x b) snap
                 + bruteForcePotential2 G pkf rinv P (P.x b) pendA))).sum
  | none =>
      (gB.map (fun b =>
        P.m b * bruteForcePotential2 G pkf rinv P (P.x b) gA)).sum

/-- The net interaction energy contributed by the single source particle `a`
(a member of the absorbing group) to the single target particle `b` (a member
of the absorbed group): one pairwise cross term of the merge. -/
def crossPairE (pkf : ℚ → ℚ → ℚ) (rinv : ℚ → ℚ) (P : PData) (a b : ℕ) : ℚ :=
  P.m b * (gravG * srcContrib pkf rinv (P.x b) (P.x a) (P.m a) (P.h a))

/-- The effective source set seen by `InteractionEnergy` for the absorbing
group: the tree snapshot plus the pending list when a tree exists, the full
member list otherwise. -/
def effSrcs (treeA : Option (List ℕ)) (pendA gA : List ℕ) : List ℕ :=
  match treeA with
  | some snap => snap ++ pendA
  | none => gA

/-- Stand-in for the external spline kernel; the concrete runs in this file
never enter the softened branch, so its value is irrelevant to them. -/
def kernelZero : ℚ → ℚ → ℚ := fun _ _ => 0

/-- Inverse-square-root table for the concrete runs in this file: it agrees
with the true inverse square root at every squared distance those runs
evaluate (the only query is at 4, and 1/sqrt 4 = 1/2). -/
def rinvEx : ℚ → ℚ := fun q => if q = 4 then 1/2 else 0

/-- Inverse-square-root stand-in for runs that never evaluate a potential. -/
def rinvZero : ℚ → ℚ := fun _ => 0

/-- Two particles on a line, equal masses, distance 2, at rest, no thermal
energy; particle 0 is the denser one. -/
def dataP2 : PData where
  n := 2
  x := fun i => if i = 0 then (0, 0, 0) else (2, 0, 0)
  v := fun _ => (0, 0, 0)
  m := fun _ => 1
  h := fun i => if i = 0 then 1 else 3
  u := fun _ => 0
  rho := fun i => if i = 0 then 2 else 1

/-- Same as `dataP2` except that particle 1 moves at speed 4 along x. -/
def dataP3 : PData :=
  { dataP2 with v := fun i => if i = 0 then (0, 0, 0) else (4, 0, 0) }

/-- Three particles on a line at 0, 1 and 100, all with smoothing length 2
(so the linking radius is 2 and particle 2 is out of range of the others),
densities strictly decreasing. -/
def dataP6 : PData where
  n := 3
  x := fun i => if i = 0 then (0, 0, 0) else if i = 1 then (1, 0, 0) else (100, 0, 0)
  v := fun _ => (0, 0, 0)
  m := fun _ => 1
  h := fun _ => 2
  u := fun _ => 0
  rho := fun i => if i = 0 then 3 else if i = 1 then 2 else 1

def xDupC9 : ℕ → Pos := fun _ => (1, 0, 0)

/-- Random stream whose first draw is the zero perturbation (positions are
left exactly in place and still collide) and whose second draw separates the
two particles. -/
def rsSepC9 : ℕ → ℕ → Pos :=
  fun k i => if k = 1 ∧ i = 1 then (1, 0, 0) else (0, 0, 0)

/-- Random stream that agrees with `rsSepC9` on the first draw and never
separates the particles afterwards. -/
def rsZeroC9 : ℕ → ℕ → Pos := fun _ _ => (0, 0, 0)

/-- Two disjoint singleton groups, for particles 0 and 1 of `dataP2`. -/
def stC1 : ScanState := mkSingleton dataP2 (mkSingleton dataP2 initState 0) 1

/-- Structural invariant of the scan state after the first `k` particles:
unprocessed particles are unassigned, processed particles carry a nonnegative
assignment naming a live group, live group keys are founders already
processed, member lists hold processed particles assigned to that very group,
`largest_assigned_group` never exceeds the size of the carrier's current
group and is the sentinel for unprocessed particles, and every per-group
dictionary has exactly the live keys. -/
structure ScanInv (P : PData) (st : ScanState) (k : ℕ) : Prop where
  ag_unproc : ∀ j, k ≤ j → st.ag j = -1
  ag_proc : ∀ j, j < k → 0 ≤ st.ag j
  ag_live : ∀ j, j < k → (st.groups (st.ag j)).isSome = true
  keys_lt : ∀ g : ℤ, (st.groups g).isSome = true → 0 ≤ g ∧ g < (k : ℤ)
  mem_lt : ∀ g l, st.groups g = some l → ∀ j ∈ l, j < k
  mem_ag : ∀ g l, st.groups g = some l → ∀ j ∈ l, st.ag j = g
  lag_bound : ∀ j, j < k → ∀ l, st.groups (st.ag j) = some l →
    st.lag j ≤ (l.length : ℤ)
  lag_unproc : ∀ j, k ≤ j → st.lag j = -1
  dom_psl : ∀ g, (st.psl g).isSome = (st.groups g).isSome
  dom_gtree : ∀ g, (st.gtree g).isSome = (st.groups g).isSome
  dom_genergy : ∀ g, (st.genergy g).isSome = (st.groups g).isSome
  dom_gke : ∀ g, (st.gke g).isSome = (st.groups g).isSome
  dom_com : ∀ g, (st.com g).isSome = (st.groups g).isSome
  dom_vcom : ∀ g, (st.vcom g).isSome = (st.groups g).isSome
  dom_masses : ∀ g, (st.masses g).isSome = (st.groups g).isSome

theorem updf_self {α β : Type} [DecidableEq α] (f : α → β) (k : α) (v : β) :
    updf f k v k = v := by
  simp [updf]

theorem updf_ne {α β : Type} [DecidableEq α] (f : α → β) (k j : α) (v : β)
    (hj : j ≠ k) : updf f k v j = f j := by
  simp [updf, hj]

theorem updMany_mem {β : Type} (f : ℕ → β) (ks : List ℕ) (v : β) (j : ℕ)
    (hj : j ∈ ks) : updMany f ks v j = v := by
  simp [updMany, hj]

theorem updMany_not_mem {β : Type} (f : ℕ → β) (ks : List ℕ) (v : β) (j : ℕ)
    (hj : j ∉ ks) : updMany f ks v j = f j := by
  simp [updMany, hj]

/-- Lemma: the interaction energy is the double sum of single-pair cross terms over the
absorbed group's members and the absorbing group's effective sources. -/
theorem interactionEnergy_eq_sum (pkf : ℚ → ℚ → ℚ) (rinv : ℚ → ℚ) (P : PData)
    (gA : List ℕ) (treeA : Option (List ℕ)) (pendA gB : List ℕ) :
    interactionEnergy pkf rinv P gA treeA pendA gB
      = (gB.map (fun b =>
          ((effSrcs treeA pendA gA).map (fun a => crossPairE pkf rinv P a b)).sum)).sum := by
  have hpt : ∀ (srcs : List ℕ) (b : ℕ),
      (srcs.map (fun a => crossPairE pkf rinv P a b)).sum
        = P.m b * (gravG *
            (srcs.map (fun j => srcContrib pkf rinv (P.x b) (P.x j) (P.m j) (P.h j))).sum) := by
    intro srcs b
    simp only [crossPairE]
    rw [List.sum_map_mul_left, List.sum_map_mul_left]
  cases treeA with
  | none =>
    simp only [interactionEnergy, effSrcs, bruteForcePotential2]
    congr 1
    apply List.map_congr_left
    intro b _
    exact (hpt gA b).symm
  | some snap =>
    simp only [interactionEnergy, effSrcs, bruteForcePotential2, treeWalkPhi]
    congr 1
    apply List.map_congr_left
    intro b _
    rw [List.map_append, List.sum_append, hpt snap b, hpt pendA b, mul_add]

/-- C8: a zero virial-ratio denominator (zero net binding energy) is
classified as "not bound" rather than an error: `virBound` is false whenever
`E - KE = 0`; the guarded formula `abs(2*KE/np.abs(E-KE))` equals the spec's
`|2*KE/(E_total-KE)|` whenever the denominator is nonzero; and an attach step
whose post-attach denominator is zero leaves both recording arrays untouched
while the scan state is still produced. -/
theorem c8_zero_denominator_not_bound
    (pkf : ℚ → ℚ → ℚ) (rinv : ℚ → ℚ) (P : PData) (ntree : ℕ) (alpha : ℚ)
    (st : ScanState) (i : ℕ)
    (hz : (st.genergy (st.ag i)).getD 0
            + energyIncrement pkf rinv P i ((st.masses (st.ag i)).getD 0)
                ((st.vcom (st.ag i)).getD (0, 0, 0)) ((st.gtree (st.ag i)).getD none)
                ((st.psl (st.ag i)).getD [])
          - ((st.gke (st.ag i)).getD 0
             + keIncrement P i ((st.vcom (st.ag i)).getD (0, 0, 0))
                 ((st.masses (st.ag i)).getD 0)) = 0) :
    (∀ ke e a : ℚ, e - ke = 0 → ¬ virBound ke e a) ∧
    (∀ ke e : ℚ, e - ke ≠ 0 →
      abs (2 * ke / abs (e - ke)) = abs (2 * ke / (e - ke))) ∧
    (addToExisting pkf rinv P ntree alpha st i).lag = st.lag ∧
    (addToExisting pkf rinv P ntree alpha st i).abg = st.abg := by
  have hnb : ¬ virBound
      ((st.gke (st.ag i)).getD 0
        + keIncrement P i ((st.vcom (st.ag i)).getD (0, 0, 0))
            ((st.masses (st.ag i)).getD 0))
      ((st.genergy (st.ag i)).getD 0
        + energyIncrement pkf rinv P i ((st.masses (st.ag i)).getD 0)
            ((st.vcom (st.ag i)).getD (0, 0, 0)) ((st.gtree (st.ag i)).getD none)
            ((st.psl (st.ag i)).getD []))
      alpha := fun hb => hb.1 hz
  refine ⟨fun ke e a hzz hb => hb.1 hzz,
          fun ke e hnz => by rw [abs_div, abs_abs, abs_div], ?_, ?_⟩
  · simp only [addToExisting, if_neg hnb]
    split <;> rfl
  · simp only [addToExisting, if_neg hnb]
    split <;> rfl

theorem c8_witness :
    (addToExisting kernelZero rinvZero dataP2 10000 2 initState 0).lag
      = initState.lag := by
  refine (c8_zero_denominator_not_bound kernelZero rinvZero dataP2 10000 2
    initState 0 ?_).2.2.1
  norm_num [initState, energyIncrement, keIncrement, dataP2, normSq, psub]

/-- C3 (amended): a single-particle attach updates the group's COM velocity by
the mass-weighted blend with the new particle, but leaves the COM position
dictionary entirely unchanged (the source's `add_to_existing_group` block never
writes `COM`). -/
theorem c3_attach_updates_vcom_only
    (pkf : ℚ → ℚ → ℚ) (rinv : ℚ → ℚ) (P : PData) (ntree : ℕ) (alpha : ℚ)
    (st : ScanState) (i : ℕ) (M : ℚ) (vc : Pos)
    (hM : st.masses (st.ag i) = some M) (hv : st.vcom (st.ag i) = some vc) :
    (addToExisting pkf rinv P ntree alpha st i).vcom (st.ag i)
      = some (massBlend (P.m i) (P.v i) M vc) ∧
    (addToExisting pkf rinv P ntree alpha st i).com = st.com := by
  constructor
  · simp only [addToExisting, hM, hv, Option.getD_some, massBlend]
    split
    · split <;> simp [updf]
    · split <;> simp [updf]
  · simp only [addToExisting]
    split
    · split <;> rfl
    · split <;> rfl

theorem c3_attach_updates_vcom_only_witness :
    (addToExisting kernelZero rinvEx dataP3 10000 2
        (attachAssign (mkSingleton dataP3 initState 0) 1 0) 1).com
      = (attachAssign (mkSingleton dataP3 initState 0) 1 0).com := by
  refine (c3_attach_updates_vcom_only kernelZero rinvEx dataP3 10000 2
    (attachAssign (mkSingleton dataP3 initState 0) 1 0) 1 1 (0, 0, 0) ?_ ?_).2
  · simp [attachAssign, mkSingleton, initState, updf, dataP3, dataP2]
  · simp [attachAssign, mkSingleton, initState, updf, dataP3, dataP2]

/-- C3 counterexample: in a concrete two-particle run (particle 1 of mass 1,
position (2,0,0), attaching to the singleton group of particle 0 with COM
(0,0,0) and mass 1), the post-attach COM velocity is the blend (2,0,0), but
the post-attach COM position is still (0,0,0), not the mass-weighted blend
(1,0,0) that the claim requires. -/
theorem c3_com_not_blended_cx :
    (scanFull kernelZero rinvEx dataP3 32 10000 2 (10 ^ 100)).vcom 0
      = some (2, 0, 0) ∧
    (scanFull kernelZero rinvEx dataP3 32 10000 2 (10 ^ 100)).com 0
      = some (0, 0, 0) ∧
    massBlend (dataP3.m 1) (dataP3.x 1) 1 (0, 0, 0) = ((1 : ℚ), (0 : ℚ), (0 : ℚ)) ∧
    some ((0 : ℚ), (0 : ℚ), (0 : ℚ)) ≠ some ((1 : ℚ), (0 : ℚ), (0 : ℚ)) := by
  refine ⟨?_, ?_, ?_, by norm_num [Prod.ext_iff]⟩ <;>
  norm_num [scanFull, scanUpto, scanStep, mkSingleton, attachAssign,
    addToExisting, mergeCore, initState, knnRow, knnD2Row, sortPairs, hMax,
    phiRank, updf, updMany, virBound, keIncrement, energyIncrement,
    bruteForcePotential2, srcContrib, treeWalkPhi, interactionEnergy, d2,
    normSq, psub, padd, psmul, massBlend, dataP3, dataP2, kernelZero, rinvEx,
    gravG, abs_of_nonneg, abs_of_nonpos,
    List.insertionSort, List.orderedInsert, List.range_succ, Option.getD]

/-- C4 (amended): after a bound single-particle attach, `assigned_bound_group`
is stamped for every member of the group, but `largest_assigned_group` is
recorded only for the newly attached particle (at the group's current size);
all other particles' `largest_assigned_group` entries are untouched. -/
theorem c4_attach_recording
    (pkf : ℚ → ℚ → ℚ) (rinv : ℚ → ℚ) (P : PData) (ntree : ℕ) (alpha : ℚ)
    (st : ScanState) (i : ℕ) (mem : List ℕ)
    (hmem : st.groups (st.ag i) = some mem)
    (hb : virBound
      ((st.gke (st.ag i)).getD 0
        + keIncrement P i ((st.vcom (st.ag i)).getD (0, 0, 0))
            ((st.masses (st.ag i)).getD 0))
      ((st.genergy (st.ag i)).getD 0
        + energyIncrement pkf rinv P i ((st.masses (st.ag i)).getD 0)
            ((st.vcom (st.ag i)).getD (0, 0, 0)) ((st.gtree (st.ag i)).getD none)
            ((st.psl (st.ag i)).getD []))
      alpha) :
    (∀ j ∈ mem, (addToExisting pkf rinv P ntree alpha st i).abg j = st.ag i) ∧
    (addToExisting pkf rinv P ntree alpha st i).lag i = (mem.length : ℤ) ∧
    (∀ j, j ≠ i →
      (addToExisting pkf rinv P ntree alpha st i).lag j = st.lag j) := by
  refine ⟨?_, ?_, ?_⟩
  · intro j hj
    simp only [addToExisting, hmem, Option.getD_some, if_pos hb]
    split <;> simp [updMany, hj]
  · simp only [addToExisting, hmem, Option.getD_some, if_pos hb]
    split <;> simp [updf]
  · intro j hj
    simp only [addToExisting, hmem, Option.getD_some, if_pos hb]
    split <;> simp [updf, hj]

theorem c4_attach_recording_witness :
    (addToExisting kernelZero rinvEx dataP2 10000 2
        (attachAssign (mkSingleton dataP2 initState 0) 1 0) 1).lag 1
      = (([0, 1] : List ℕ).length : ℤ) := by
  refine (c4_attach_recording kernelZero rinvEx dataP2 10000 2
    (attachAssign (mkSingleton dataP2 initState 0) 1 0) 1 [0, 1] ?_ ?_).2.1
  · simp [attachAssign, mkSingleton, initState, updf]
  · norm_num [attachAssign, mkSingleton, initState, updf, virBound,
      keIncrement, energyIncrement, bruteForcePotential2, srcContrib, d2,
      normSq, psub, dataP2, kernelZero, rinvEx, gravG, abs_of_nonneg]

/-- C4 counterexample: in the concrete two-particle run, the attach of
particle 1 to particle 0's group is bound (`assigned_bound_group` is stamped
with 0 for both members, and particle 1's `largest_assigned_group` is 2), yet
particle 0's `largest_assigned_group` is still the sentinel -1, not the group
size 2 that the claim requires for every member. -/
theorem c4_lag_not_all_members_cx :
    (scanFull kernelZero rinvEx dataP2 32 10000 2 (10 ^ 100)).abg 0 = 0 ∧
    (scanFull kernelZero rinvEx dataP2 32 10000 2 (10 ^ 100)).abg 1 = 0 ∧
    (scanFull kernelZero rinvEx dataP2 32 10000 2 (10 ^ 100)).lag 1 = 2 ∧
    (scanFull kernelZero rinvEx dataP2 32 10000 2 (10 ^ 100)).lag 0 = -1 ∧
    (-1 : ℤ) ≠ 2 := by
  refine ⟨?_, ?_, ?_, ?_, by decide⟩ <;>
  norm_num [scanFull, scanUpto, scanStep, mkSingleton, attachAssign,
    addToExisting, mergeCore, initState, knnRow, knnD2Row, sortPairs, hMax,
    phiRank, updf, updMany, virBound, keIncrement, energyIncrement,
    bruteForcePotential2, srcContrib, treeWalkPhi, interactionEnergy, d2,
    normSq, psub, padd, psmul, dataP2, kernelZero, rinvEx, gravG,
    abs_of_nonneg, abs_of_nonpos,
    List.insertionSort, List.orderedInsert, List.range_succ, Option.getD]

/-- C6 (amended): the "no neighbor in range" rule creates a brand-new
singleton group for particle `i` whenever AT LEAST ONE of its K neighbor
slots holds the out-of-range sentinel (i.e. `i` has fewer than K-1 in-range
non-self neighbors), and the singleton's total energy is exactly
`m_i * u_i` (thermal only), its kinetic-energy entry likewise, with COM
position and velocity equal to the particle's own state. -/
theorem c6_singleton_rule
    (pkf : ℚ → ℚ → ℚ) (rinv : ℚ → ℚ) (P : PData) (ntree : ℕ) (alpha : ℚ)
    (ngb : ℕ → List ℕ) (ngbd2 : ℕ → List ℚ) (st : ScanState) (i : ℕ)
    (hs : (ngb i).any (fun s => P.n - 1 < s) = true) :
    scanStep pkf rinv P ntree alpha ngb ngbd2 st i = mkSingleton P st i ∧
    (scanStep pkf rinv P ntree alpha ngb ngbd2 st i).groups i = some [i] ∧
    (scanStep pkf rinv P ntree alpha ngb ngbd2 st i).genergy i
      = some (P.m i * P.u i) ∧
    (scanStep pkf rinv P ntree alpha ngb ngbd2 st i).gke i
      = some (P.m i * P.u i) ∧
    (scanStep pkf rinv P ntree alpha ngb ngbd2 st i).com i = some (P.x i) ∧
    (scanStep pkf rinv P ntree alpha ngb ngbd2 st i).vcom i = some (P.v i) ∧
    (scanStep pkf rinv P ntree alpha ngb ngbd2 st i).masses i = some (P.m i) ∧
    (scanStep pkf rinv P ntree alpha ngb ngbd2 st i).ag i = (i : ℤ) ∧
    (scanStep pkf rinv P ntree alpha ngb ngbd2 st i).gtree i = some none ∧
    (scanStep pkf rinv P ntree alpha ngb ngbd2 st i).psl i = some [i] := by
  have hstep : scanStep pkf rinv P ntree alpha ngb ngbd2 st i
      = mkSingleton P st i := by
    simp only [scanStep, hs, if_true]
  refine ⟨hstep, ?_, ?_, ?_, ?_, ?_, ?_, ?_, ?_, ?_⟩ <;>
    rw [hstep] <;> simp [mkSingleton, updf]

theorem c6_singleton_rule_witness :
    (scanStep kernelZero rinvZero dataP2 10000 2 (fun _ => [0, 5])
        (fun _ => [0, 100]) initState 0).genergy 0
      = some (dataP2.m 0 * dataP2.u 0) := by
  refine (c6_singleton_rule kernelZero rinvZero dataP2 10000 2 (fun _ => [0, 5])
    (fun _ => [0, 100]) initState 0 (by decide)).2.2.1

/-- C6 counterexample: in the concrete three-particle geometry `dataP6` (with
linking radius 2), particle 0's neighbor row is [0, 1, 3]: slot 1 holds the
genuine in-range neighbor 1 and slot 2 holds the out-of-range sentinel 3.
The "no neighbor in range" branch fires (the sentinel test is `np.any`), and
the scan makes particle 0 a singleton group, even though NOT all of its
non-self neighbor slots are out-of-range sentinels: the claim's "exactly when
all K-1 slots are sentinels" is false. -/
theorem c6_any_not_all_sentinel_cx :
    knnRow dataP6 3 4 0 = [0, 1, 3] ∧
    (([0, 1, 3] : List ℕ).any (fun s => dataP6.n - 1 < s)) = true ∧
    ¬ (∀ s ∈ (([0, 1, 3] : List ℕ).tail), dataP6.n - 1 < s) ∧
    (scanFull kernelZero rinvZero dataP6 32 10000 2 (10 ^ 100)).groups 0
      = some [0] ∧
    (scanFull kernelZero rinvZero dataP6 32 10000 2 (10 ^ 100)).genergy 0
      = some (dataP6.m 0 * dataP6.u 0) := by
  refine ⟨?_, ?_, ?_, ?_, ?_⟩ <;>
  norm_num [scanFull, scanUpto, scanStep, mkSingleton, attachAssign,
    addToExisting, mergeCore, initState, knnRow, knnD2Row, sortPairs, hMax,
    phiRank, updf, updMany, virBound, keIncrement, energyIncrement,
    bruteForcePotential2, srcContrib, treeWalkPhi, interactionEnergy, d2,
    normSq, psub, padd, psmul, dataP6, kernelZero, rinvZero, gravG,
    abs_of_nonneg, abs_of_nonpos,
    List.insertionSort, List.orderedInsert, List.range_succ, Option.getD]

/-- C7 (code bug): the source hardcodes `G = 4.301e4` at every energy
evaluation call site instead of using the configured `--G` option (which is
parsed but never consulted).  The embedded `EnergyIncrement` and
`InteractionEnergy` coincide with the configured-G spec models exactly at
`G = 43010`, and a run configured with `G = 1` would get a different energy:
the configured constant is not applied. -/
theorem c7_hardcoded_G :
    (∀ (pkf : ℚ → ℚ → ℚ) (rinv : ℚ → ℚ) (P : PData) (i : ℕ) (M : ℚ)
        (vcom : Pos) (tree : Option (List ℕ)) (pend : List ℕ),
      energyIncrement pkf rinv P i M vcom tree pend
        = energyIncrementWithG gravG pkf rinv P i M vcom tree pend) ∧
    (∀ (pkf : ℚ → ℚ → ℚ) (rinv : ℚ → ℚ) (P : PData) (gA : List ℕ)
        (trA : Option (List ℕ)) (pendA gB : List ℕ),
      interactionEnergy pkf rinv P gA trA pendA gB
        = interactionEnergyWithG gravG pkf rinv P gA trA pendA gB) ∧
    energyIncrement kernelZero rinvEx dataP2 1 1 (0, 0, 0) none [0]
      ≠ energyIncrementWithG 1 kernelZero rinvEx dataP2 1 1 (0, 0, 0) none [0] := by
  refine ⟨fun pkf rinv P i M vcom tree pend => rfl,
          fun pkf rinv P gA trA pendA gB => rfl, ?_⟩
  norm_num [energyIncrement, energyIncrementWithG, bruteForcePotential2,
    srcContrib, d2, normSq, psub, dataP2, kernelZero, rinvEx, gravG]

/-- C9 (amended): when positions still collide after a perturbation, the
dedup loop of `CloudPhind` does not raise any error: it applies the next
perturbation and retries, it exits (successfully, with the current positions)
exactly when no duplicate remains, and on positions that perturbation can
never separate (e.g. two particles at the origin, which the multiplicative
perturbation fixes) it simply loops forever, for any random stream and any
amount of fuel. -/
theorem c9_perturb_retry_loop :
    (∀ (rs : ℕ → ℕ → Pos) (n k fuel : ℕ) (x : ℕ → Pos),
      hasDupPos n x = true →
        dedupPositions rs n k (fuel + 1) x
          = dedupPositions rs n (k + 1) fuel (perturbOnce (rs k) x)) ∧
    (∀ (rs : ℕ → ℕ → Pos) (n k fuel : ℕ) (x : ℕ → Pos),
      hasDupPos n x = false → dedupPositions rs n k fuel x = some x) ∧
    (∀ (rs : ℕ → ℕ → Pos) (k fuel : ℕ),
      dedupPositions rs 2 k fuel (fun _ => (0, 0, 0)) = none) := by
  have hzero : ∀ r : ℕ → Pos, perturbOnce r (fun _ => ((0 : ℚ), (0 : ℚ), (0 : ℚ)))
      = fun _ => ((0 : ℚ), (0 : ℚ), (0 : ℚ)) := by
    intro r
    funext i
    simp [perturbOnce]
  have hdz : hasDupPos 2 (fun _ => ((0 : ℚ), (0 : ℚ), (0 : ℚ))) = true := by
    norm_num [hasDupPos, List.range_succ]
  refine ⟨fun rs n k fuel x hd => by simp [dedupPositions, hd],
          fun rs n k fuel x hd => ?_, fun rs k fuel => ?_⟩
  · cases fuel <;> simp [dedupPositions, hd]
  · induction fuel generalizing k with
    | zero =>
      simp only [dedupPositions]
      rw [if_pos hdz]
    | succ f ih => rw [dedupPositions, if_pos hdz, hzero, ih]

theorem c9_perturb_retry_loop_witness :
    dedupPositions rsSepC9 2 0 (4 + 1) xDupC9
      = dedupPositions rsSepC9 2 (0 + 1) 4 (perturbOnce (rsSepC9 0) xDupC9) := by
  refine c9_perturb_retry_loop.1 rsSepC9 2 0 4 xDupC9 ?_
  norm_num [hasDupPos, List.range_succ, xDupC9]

/-- C9 counterexample: two particles share the position (1,0,0); the first
perturbation draw is zero, so the positions still collide after one
perturbation.  The claim then requires the run to abort with a
DegenerateGeometry error, making no further perturbation retries — but the
code's loop consults further draws: with a stream whose second draw separates
the particles, the loop terminates successfully, while with a stream that
keeps drawing zeros it is still looping when the fuel runs out; the outcome
depends on draws after the first, and no error is ever produced. -/
theorem c9_no_abort_after_first_perturbation_cx :
    rsSepC9 0 = rsZeroC9 0 ∧
    hasDupPos 2 (perturbOnce (rsSepC9 0) xDupC9) = true ∧
    (dedupPositions rsSepC9 2 0 5 xDupC9).isSome = true ∧
    dedupPositions rsZeroC9 2 0 5 xDupC9 = none := by
  refine ⟨?_, ?_, ?_, ?_⟩
  · funext i
    simp [rsSepC9, rsZeroC9]
  · norm_num [hasDupPos, List.range_succ, perturbOnce, xDupC9, rsSepC9]
  · norm_num [dedupPositions, hasDupPos, List.range_succ, perturbOnce,
      xDupC9, rsSepC9, Prod.ext_iff]
  · norm_num [dedupPositions, hasDupPos, List.range_succ, perturbOnce,
      xDupC9, rsZeroC9]

/-- C1: when the scan merges distinct groups `gA` (members `A`, energy `eA`,
KE `keA`, mass `ma`, COM velocity `va`) and `gB` (members `B`, energy `eB`,
KE `keB`, mass `mb`, COM velocity `vb`), the surviving group's total energy is
`eA + eB` plus the relative-motion kinetic term
`1/2 * (ma*mb/(ma+mb)) * |va - vb|^2` plus the mutual interaction potential
energy, expressed as a sum over the set of cross pairs (a,b) with `a` in `A`
and `b` in `B` — each pairwise interaction counted exactly once; and the
surviving kinetic energy is `keA + keB` plus the same relative-motion term.
The hypothesis `hsrc` states that the effective interaction sources (tree
snapshot plus pending list if a tree exists, the full member list otherwise)
are a permutation of `A`, which the scan maintains. -/
theorem c1_merge_energy_additivity
    (pkf : ℚ → ℚ → ℚ) (rinv : ℚ → ℚ) (P : PData) (ntree : ℕ) (alpha : ℚ)
    (st : ScanState) (i : ℕ) (gA gB : ℤ)
    (A B : List ℕ) (eA eB keA keB ma mb : ℚ) (va vb : Pos)
    (hA : st.groups gA = some A) (hB : st.groups gB = some B)
    (heA : st.genergy gA = some eA) (heB : st.genergy gB = some eB)
    (hkA : st.gke gA = some keA) (hkB : st.gke gB = some keB)
    (hmA : st.masses gA = some ma) (hmB : st.masses gB = some mb)
    (hvA : st.vcom gA = some va) (hvB : st.vcom gB = some vb)
    (hAnd : A.Nodup) (hBnd : B.Nodup)
    (hsrc : (effSrcs ((st.gtree gA).getD none) ((st.psl gA).getD []) A).Perm A) :
    (mergeCore pkf rinv P ntree alpha st i gA gB).genergy gA
      = some (eA + eB + 1/2 * (ma * mb / (ma + mb)) * normSq (psub va vb)
          + ∑ p ∈ A.toFinset ×ˢ B.toFinset, crossPairE pkf rinv P p.1 p.2) ∧
    (mergeCore pkf rinv P ntree alpha st i gA gB).gke gA
      = some (keA + keB + 1/2 * (ma * mb / (ma + mb)) * normSq (psub va vb)) := by
  have inner : ∀ b : ℕ,
      (∑ a ∈ A.toFinset, crossPairE pkf rinv P a b)
        = ((effSrcs ((st.gtree gA).getD none) ((st.psl gA).getD []) A).map
            (fun a => crossPairE pkf rinv P a b)).sum := by
    intro b
    rw [List.sum_toFinset _ hAnd]
    exact ((hsrc.map (fun a => crossPairE pkf rinv P a b)).sum_eq).symm
  have hIE : interactionEnergy pkf rinv P A ((st.gtree gA).getD none)
      ((st.psl gA).getD []) B
      = ∑ p ∈ A.toFinset ×ˢ B.toFinset, crossPairE pkf rinv P p.1 p.2 := by
    rw [interactionEnergy_eq_sum, Finset.sum_product_right',
      List.sum_toFinset _ hBnd]
    apply congrArg List.sum
    apply List.map_congr_left
    intro b _
    exact (inner b).symm
  constructor
  · simp only [mergeCore, hA, hB, heA, heB, hmA, hmB, hvA, hvB,
      Option.getD_some, updf_self]
    rw [hIE]
  · simp only [mergeCore, hkA, hkB, hmA, hmB, hvA, hvB,
      Option.getD_some, updf_self]

theorem c1_merge_energy_additivity_witness :
    (mergeCore kernelZero rinvEx dataP2 10000 2 stC1 2 0 1).gke 0
      = some (0 + 0 + 1/2 * (1 * 1 / (1 + 1))
          * normSq (psub ((0 : ℚ), (0 : ℚ), (0 : ℚ)) ((0 : ℚ), (0 : ℚ), (0 : ℚ)))) := by
  refine (c1_merge_energy_additivity kernelZero rinvEx dataP2 10000 2 stC1 2 0 1
    [0] [1] 0 0 0 0 1 1 (0, 0, 0) (0, 0, 0)
    ?_ ?_ ?_ ?_ ?_ ?_ ?_ ?_ ?_ ?_ (by decide) (by decide) ?_).2
  · simp [stC1, mkSingleton, initState, updf, dataP2]
  · simp [stC1, mkSingleton, initState, updf, dataP2]
  · simp [stC1, mkSingleton, initState, updf, dataP2]
  · simp [stC1, mkSingleton, initState, updf, dataP2]
  · simp [stC1, mkSingleton, initState, updf, dataP2]
  · simp [stC1, mkSingleton, initState, updf, dataP2]
  · simp [stC1, mkSingleton, initState, updf, dataP2]
  · simp [stC1, mkSingleton, initState, updf, dataP2]
  · simp [stC1, mkSingleton, initState, updf, dataP2]
  · simp [stC1, mkSingleton, initState, updf, dataP2]
  · exact List.Perm.refl [0]

/-- C10: on inputs with pairwise-distinct particle positions the perturbation
loop of `CloudPhind` exits immediately without consulting any random draw — it
returns the positions unchanged for every stream, iteration counter and fuel —
and the whole pipeline is a deterministic function of its inputs: two runs
with different random streams and fuel produce identical results, namely
`ParticleGroups` of the untouched inputs (equal groups, equal bound-group map
and equal assignment array). -/
theorem c10_determinism
    (pkf : ℚ → ℚ → ℚ) (rinv : ℚ → ℚ) (P : PData) (cngb ntree : ℕ)
    (alpha rmax : ℚ) (hnd : hasDupPos P.n P.x = false) :
    (∀ (rs : ℕ → ℕ → Pos) (k fuel : ℕ),
      dedupPositions rs P.n k fuel P.x = some P.x) ∧
    (∀ (rs1 rs2 : ℕ → ℕ → Pos) (fuel1 fuel2 : ℕ),
      cloudPhindModel pkf rinv rs1 fuel1 P cngb ntree alpha rmax
        = cloudPhindModel pkf rinv rs2 fuel2 P cngb ntree alpha rmax ∧
      cloudPhindModel pkf rinv rs1 fuel1 P cngb ntree alpha rmax
        = some (particleGroupsF pkf rinv P cngb ntree alpha rmax)) := by
  have hd : ∀ (rs : ℕ → ℕ → Pos) (k fuel : ℕ),
      dedupPositions rs P.n k fuel P.x = some P.x := by
    intro rs k fuel
    cases fuel <;> simp [dedupPositions, hnd]
  refine ⟨hd, fun rs1 rs2 fuel1 fuel2 => ⟨?_, ?_⟩⟩ <;>
    simp [cloudPhindModel, hd]

theorem c10_determinism_witness :
    dedupPositions rsZeroC9 dataP2.n 0 7 dataP2.x = some dataP2.x := by
  refine (c10_determinism kernelZero rinvEx dataP2 32 10000 2 (10 ^ 100)
    ?_).1 rsZeroC9 0 7
  norm_num [hasDupPos, List.range_succ, dataP2, Prod.ext_iff]

theorem inv_init (P : PData) : ScanInv P initState 0 := by
  constructor <;> intro j <;> simp [initState]

/-- A live key was created by an already-processed founder, so the key of the
current particle is fresh. -/
theorem fresh_key (P : PData) (st : ScanState) (k : ℕ) (hInv : ScanInv P st k) :
    st.groups (k : ℤ) = none := by
  cases hg : st.groups (k : ℤ) with
  | none => rfl
  | some l =>
    have := (hInv.keys_lt (k : ℤ) (by simp [hg])).2
    omega

theorem inv_mkSingleton (P : PData) (st : ScanState) (k : ℕ)
    (hInv : ScanInv P st k) : ScanInv P (mkSingleton P st k) (k + 1) := by
  have hfresh := fresh_key P st k hInv
  constructor
  · intro j hj
    have hjk : j ≠ k := by omega
    simp only [mkSingleton, updf_ne st.ag k j _ hjk]
    exact hInv.ag_unproc j (by omega)
  · intro j hj
    by_cases hjk : j = k
    · subst hjk
      simp [mkSingleton, updf_self]
    · simp only [mkSingleton, updf_ne st.ag k j _ hjk]
      exact hInv.ag_proc j (by omega)
  · intro j hj
    by_cases hjk : j = k
    · subst hjk
      simp [mkSingleton, updf, updf_self]
    · simp only [mkSingleton, updf_ne st.ag k j _ hjk]
      have hlive := hInv.ag_live j (by omega)
      have hne : st.ag j ≠ (k : ℤ) := by
        intro hc
        rw [hc, hfresh] at hlive
        simp at hlive
      rw [updf_ne _ _ _ _ hne]
      exact hlive
  · intro g hg
    by_cases hgk : g = (k : ℤ)
    · subst hgk
      constructor
      · positivity
      · omega
    · rw [mkSingleton] at hg
      simp only at hg
      rw [updf_ne _ _ _ _ hgk] at hg
      have := hInv.keys_lt g hg
      omega
  · intro g l hg j hj
    by_cases hgk : g = (k : ℤ)
    · subst hgk
      rw [mkSingleton] at hg
      simp only [updf_self] at hg
      cases hg
      simp at hj
      omega
    · rw [mkSingleton] at hg
      simp only at hg
      rw [updf_ne _ _ _ _ hgk] at hg
      have := hInv.mem_lt g l hg j hj
      omega
  · intro g l hg j hj
    by_cases hgk : g = (k : ℤ)
    · subst hgk
      rw [mkSingleton] at hg
      simp only [updf_self] at hg
      cases hg
      simp at hj
      subst hj
      simp [mkSingleton, updf_self]
    · rw [mkSingleton] at hg
      simp only at hg
      rw [updf_ne _ _ _ _ hgk] at hg
      have hag := hInv.mem_ag g l hg j hj
      have hjk : j ≠ k := by
        have := hInv.mem_lt g l hg j hj
        omega
      simp only [mkSingleton]
      rw [updf_ne st.ag k j _ hjk]
      exact hag
  · intro j hj l hg
    by_cases hjk : j = k
    · subst hjk
      simp only [mkSingleton, updf_self] at hg ⊢
      cases hg
      have hl := hInv.lag_unproc j (le_refl j)
      simp only [List.length_cons, List.length_nil]
      omega
    · have hjlt : j < k := by omega
      simp only [mkSingleton, updf_ne st.ag k j _ hjk,
        updf_ne st.lag k j _ hjk] at hg ⊢
      have hne : st.ag j ≠ (k : ℤ) := by
        intro hc
        have hlive := hInv.ag_live j hjlt
        rw [hc, hfresh] at hlive
        simp at hlive
      rw [updf_ne _ _ _ _ hne] at hg
      exact hInv.lag_bound j hjlt l hg
  · intro j hj
    have hjk : j ≠ k := by omega
    simp only [mkSingleton, updf_ne st.lag k j _ hjk]
    exact hInv.lag_unproc j (by omega)
  · intro g
    by_cases hgk : g = (k : ℤ)
    · subst hgk
      simp [mkSingleton, updf_self]
    · simp only [mkSingleton, updf_ne _ _ _ _ hgk]
      exact hInv.dom_psl g
  · intro g
    by_cases hgk : g = (k : ℤ)
    · subst hgk
      simp [mkSingleton, updf_self]
    · simp only [mkSingleton, updf_ne _ _ _ _ hgk]
      exact hInv.dom_gtree g
  · intro g
    by_cases hgk : g = (k : ℤ)
    · subst hgk
      simp [mkSingleton, updf_self]
    · simp only [mkSingleton, updf_ne _ _ _ _ hgk]
      exact hInv.dom_genergy g
  · intro g
    by_cases hgk : g = (k : ℤ)
    · subst hgk
      simp [mkSingleton, updf_self]
    · simp only [mkSingleton, updf_ne _ _ _ _ hgk]
      exact hInv.dom_gke g
  · intro g
    by_cases hgk : g = (k : ℤ)
    · subst hgk
      simp [mkSingleton, updf_self]
    · simp only [mkSingleton, updf_ne _ _ _ _ hgk]
      exact hInv.dom_com g
  · intro g
    by_cases hgk : g = (k : ℤ)
    · subst hgk
      simp [mkSingleton, updf_self]
    · simp only [mkSingleton, updf_ne _ _ _ _ hgk]
      exact hInv.dom_vcom g
  · intro g
    by_cases hgk : g = (k : ℤ)
    · subst hgk
      simp [mkSingleton, updf_self]
    · simp only [mkSingleton, updf_ne _ _ _ _ hgk]
      exact hInv.dom_masses g

theorem updf_updf_same {α β : Type} [DecidableEq α] (f : α → β) (k : α) (a b : β) :
    updf (updf f k a) k b = updf f k b := by
  funext j
  by_cases hj : j = k <;> simp [updf, hj]

theorem aTE_groups (pkf : ℚ → ℚ → ℚ) (rinv : ℚ → ℚ) (P : PData) (nt : ℕ)
    (alpha : ℚ) (st : ScanState) (i : ℕ) :
    (addToExisting pkf rinv P nt alpha st i).groups = st.groups := by
  simp only [addToExisting]
  split
  · split <;> rfl
  · split <;> rfl

theorem aTE_ag (pkf : ℚ → ℚ → ℚ) (rinv : ℚ → ℚ) (P : PData) (nt : ℕ)
    (alpha : ℚ) (st : ScanState) (i : ℕ) :
    (addToExisting pkf rinv P nt alpha st i).ag = st.ag := by
  simp only [addToExisting]
  split
  · split <;> rfl
  · split <;> rfl

theorem aTE_com (pkf : ℚ → ℚ → ℚ) (rinv : ℚ → ℚ) (P : PData) (nt : ℕ)
    (alpha : ℚ) (st : ScanState) (i : ℕ) :
    (addToExisting pkf rinv P nt alpha st i).com = st.com := by
  simp only [addToExisting]
  split
  · split <;> rfl
  · split <;> rfl

theorem aTE_gke (pkf : ℚ → ℚ → ℚ) (rinv : ℚ → ℚ) (P : PData) (nt : ℕ)
    (alpha : ℚ) (st : ScanState) (i : ℕ) :
    ∃ v : ℚ, (addToExisting pkf rinv P nt alpha st i).gke
      = updf st.gke (st.ag i) (some v) := by
  simp only [addToExisting]
  split
  · split <;> exact ⟨_, rfl⟩
  · split <;> exact ⟨_, rfl⟩

theorem aTE_genergy (pkf : ℚ → ℚ → ℚ) (rinv : ℚ → ℚ) (P : PData) (nt : ℕ)
    (alpha : ℚ) (st : ScanState) (i : ℕ) :
    ∃ v : ℚ, (addToExisting pkf rinv P nt alpha st i).genergy
      = updf st.genergy (st.ag i) (some v) := by
  simp only [addToExisting]
  split
  · split <;> exact ⟨_, rfl⟩
  · split <;> exact ⟨_, rfl⟩

theorem aTE_vcom (pkf : ℚ → ℚ → ℚ) (rinv : ℚ → ℚ) (P : PData) (nt : ℕ)
    (alpha : ℚ) (st : ScanState) (i : ℕ) :
    ∃ v : Pos, (addToExisting pkf rinv P nt alpha st i).vcom
      = updf st.vcom (st.ag i) (some v) := by
  simp only [addToExisting]
  split
  · split <;> exact ⟨_, rfl⟩
  · split <;> exact ⟨_, rfl⟩

theorem aTE_masses (pkf : ℚ → ℚ → ℚ) (rinv : ℚ → ℚ) (P : PData) (nt : ℕ)
    (alpha : ℚ) (st : ScanState) (i : ℕ) :
    ∃ v : ℚ, (addToExisting pkf rinv P nt alpha st i).masses
      = updf st.masses (st.ag i) (some v) := by
  simp only [addToExisting]
  split
  · split <;> exact ⟨_, rfl⟩
  · split <;> exact ⟨_, rfl⟩

theorem aTE_psl (pkf : ℚ → ℚ → ℚ) (rinv : ℚ → ℚ) (P : PData) (nt : ℕ)
    (alpha : ℚ) (st : ScanState) (i : ℕ) :
    ∃ v : List ℕ, (addToExisting pkf rinv P nt alpha st i).psl
      = updf st.psl (st.ag i) (some v) := by
  simp only [addToExisting]
  split
  · split <;> exact ⟨[], by rw [updf_updf_same]⟩
  · split <;> exact ⟨_, rfl⟩

theorem aTE_gtree (pkf : ℚ → ℚ → ℚ) (rinv : ℚ → ℚ) (P : PData) (nt : ℕ)
    (alpha : ℚ) (st : ScanState) (i : ℕ) :
    (∃ t : Option (List ℕ), (addToExisting pkf rinv P nt alpha st i).gtree
      = updf st.gtree (st.ag i) (some t)) ∨
    (addToExisting pkf rinv P nt alpha st i).gtree = st.gtree := by
  simp only [addToExisting]
  split
  · left
    split <;> exact ⟨_, rfl⟩
  · right
    split <;> rfl

theorem aTE_lag (pkf : ℚ → ℚ → ℚ) (rinv : ℚ → ℚ) (P : PData) (nt : ℕ)
    (alpha : ℚ) (st : ScanState) (i : ℕ) :
    (addToExisting pkf rinv P nt alpha st i).lag
      = updf st.lag i (((st.groups (st.ag i)).getD []).length : ℤ) ∨
    (addToExisting pkf rinv P nt alpha st i).lag = st.lag := by
  simp only [addToExisting]
  split
  · split
    · exact Or.inl rfl
    · exact Or.inr rfl
  · split
    · exact Or.inl rfl
    · exact Or.inr rfl

theorem aTE_abg (pkf : ℚ → ℚ → ℚ) (rinv : ℚ → ℚ) (P : PData) (nt : ℕ)
    (alpha : ℚ) (st : ScanState) (i : ℕ) :
    (addToExisting pkf rinv P nt alpha st i).abg
      = updMany st.abg ((st.groups (st.ag i)).getD []) (st.ag i) ∨
    (addToExisting pkf rinv P nt alpha st i).abg = st.abg := by
  simp only [addToExisting]
  split
  · split
    · exact Or.inl rfl
    · exact Or.inr rfl
  · split
    · exact Or.inl rfl
    · exact Or.inr rfl

theorem inv_attachAssign (P : PData) (st : ScanState) (k : ℕ) (g : ℤ)
    (L : List ℕ) (hInv : ScanInv P st k) (hL : st.groups g = some L) :
    ScanInv P (attachAssign st k g) (k + 1) := by
  have hg0 : 0 ≤ g := (hInv.keys_lt g (by simp [hL])).1
  have hglt : g < (k : ℤ) := (hInv.keys_lt g (by simp [hL])).2
  have hgetD : (st.groups g).getD [] = L := by rw [hL]; rfl
  constructor
  · intro j hj
    have hjk : j ≠ k := by omega
    simp only [attachAssign, updf_ne st.ag k j _ hjk]
    exact hInv.ag_unproc j (by omega)
  · intro j hj
    by_cases hjk : j = k
    · subst hjk
      simp only [attachAssign, updf_self]
      exact hg0
    · simp only [attachAssign, updf_ne st.ag k j _ hjk]
      exact hInv.ag_proc j (by omega)
  · intro j hj
    by_cases hjk : j = k
    · subst hjk
      simp only [attachAssign, updf_self]
      simp [updf_self]
    · simp only [attachAssign, updf_ne st.ag k j _ hjk]
      by_cases hag : st.ag j = g
      · rw [hag, updf_self]
        simp
      · rw [updf_ne _ _ _ _ hag]
        exact hInv.ag_live j (by omega)
  · intro g2 hg2
    by_cases hgg : g2 = g
    · subst hgg
      exact ⟨hg0, by omega⟩
    · simp only [attachAssign, updf_ne _ _ _ _ hgg] at hg2
      have := hInv.keys_lt g2 hg2
      omega
  · intro g2 l hg2 j hj
    by_cases hgg : g2 = g
    · subst hgg
      simp only [attachAssign, updf_self, hgetD] at hg2
      cases hg2
      rcases List.mem_append.mp hj with hjL | hjk
      · have := hInv.mem_lt g2 L hL j hjL
        omega
      · simp at hjk
        omega
    · simp only [attachAssign, updf_ne _ _ _ _ hgg] at hg2
      have := hInv.mem_lt g2 l hg2 j hj
      omega
  · intro g2 l hg2 j hj
    by_cases hgg : g2 = g
    · subst hgg
      simp only [attachAssign, updf_self, hgetD] at hg2
      cases hg2
      rcases List.mem_append.mp hj with hjL | hjk
      · have hjlt := hInv.mem_lt g2 L hL j hjL
        have hjk : j ≠ k := by omega
        simp only [attachAssign, updf_ne st.ag k j _ hjk]
        exact hInv.mem_ag g2 L hL j hjL
      · simp at hjk
        subst hjk
        simp only [attachAssign, updf_self]
    · simp only [attachAssign, updf_ne _ _ _ _ hgg] at hg2
      have hjlt := hInv.mem_lt g2 l hg2 j hj
      have hjk : j ≠ k := by omega
      simp only [attachAssign, updf_ne st.ag k j _ hjk]
      exact hInv.mem_ag g2 l hg2 j hj
  · intro j hj l hg2
    by_cases hjk : j = k
    · subst hjk
      simp only [attachAssign, updf_self] at hg2
      rw [hgetD] at hg2
      cases hg2
      have hlu := hInv.lag_unproc j (le_refl j)
      have hfix : (attachAssign st j g).lag = st.lag := rfl
      rw [hfix, hlu]
      omega
    · have hjlt : j < k := by omega
      simp only [attachAssign, updf_ne st.ag k j _ hjk] at hg2 ⊢
      by_cases hag : st.ag j = g
      · rw [hag, updf_self, hgetD] at hg2
        cases hg2
        have hb := hInv.lag_bound j hjlt L (by rw [hag]; exact hL)
        simp only [List.length_append, List.length_cons, List.length_nil]
        omega
      · rw [updf_ne _ _ _ _ hag] at hg2
        exact hInv.lag_bound j hjlt l hg2
  · intro j hj
    simp only [attachAssign]
    exact hInv.lag_unproc j (by omega)
  · intro g2
    simp only [attachAssign]
    by_cases hgg : g2 = g
    · subst hgg
      rw [updf_self]
      simp [hInv.dom_psl g2, hL]
    · rw [updf_ne _ _ _ _ hgg]
      exact hInv.dom_psl g2
  · intro g2
    simp only [attachAssign]
    by_cases hgg : g2 = g
    · subst hgg
      rw [updf_self]
      simp [hInv.dom_gtree g2, hL]
    · rw [updf_ne _ _ _ _ hgg]
      exact hInv.dom_gtree g2
  · intro g2
    simp only [attachAssign]
    by_cases hgg : g2 = g
    · subst hgg
      rw [updf_self]
      simp [hInv.dom_genergy g2, hL]
    · rw [updf_ne _ _ _ _ hgg]
      exact hInv.dom_genergy g2
  · intro g2
    simp only [attachAssign]
    by_cases hgg : g2 = g
    · subst hgg
      rw [updf_self]
      simp [hInv.dom_gke g2, hL]
    · rw [updf_ne _ _ _ _ hgg]
      exact hInv.dom_gke g2
  · intro g2
    simp only [attachAssign]
    by_cases hgg : g2 = g
    · subst hgg
      rw [updf_self]
      simp [hInv.dom_com g2, hL]
    · rw [updf_ne _ _ _ _ hgg]
      exact hInv.dom_com g2
  · intro g2
    simp only [attachAssign]
    by_cases hgg : g2 = g
    · subst hgg
      rw [updf_self]
      simp [hInv.dom_vcom g2, hL]
    · rw [updf_ne _ _ _ _ hgg]
      exact hInv.dom_vcom g2
  · intro g2
    simp only [attachAssign]
    by_cases hgg : g2 = g
    · subst hgg
      rw [updf_self]
      simp [hInv.dom_masses g2, hL]
    · rw [updf_ne _ _ _ _ hgg]
      exact hInv.dom_masses g2

theorem inv_addToExisting (pkf : ℚ → ℚ → ℚ) (rinv : ℚ → ℚ) (P : PData)
    (nt : ℕ) (alpha : ℚ) (st : ScanState) (k : ℕ)
    (hInv : ScanInv P st (k + 1)) :
    ScanInv P (addToExisting pkf rinv P nt alpha st k) (k + 1) := by
  have hlive : (st.groups (st.ag k)).isSome = true := hInv.ag_live k (by omega)
  obtain ⟨L, hL⟩ := Option.isSome_iff_exists.mp hlive
  have hgetD : (st.groups (st.ag k)).getD [] = L := by rw [hL]; rfl
  constructor
  · intro j hj
    rw [aTE_ag]
    exact hInv.ag_unproc j hj
  · intro j hj
    rw [aTE_ag]
    exact hInv.ag_proc j hj
  · intro j hj
    rw [aTE_ag, aTE_groups]
    exact hInv.ag_live j hj
  · intro g hg
    rw [aTE_groups] at hg
    exact hInv.keys_lt g hg
  · intro g l hg
    rw [aTE_groups] at hg
    exact hInv.mem_lt g l hg
  · intro g l hg
    rw [aTE_groups] at hg
    intro j hj
    rw [aTE_ag]
    exact hInv.mem_ag g l hg j hj
  · intro j hj l hg
    rw [aTE_ag, aTE_groups] at hg
    rcases aTE_lag pkf rinv P nt alpha st k with hlag | hlag
    · rw [hlag]
      by_cases hjk : j = k
      · subst hjk
        rw [updf_self, hgetD]
        rw [hL] at hg
        cases hg
        omega
      · rw [updf_ne _ _ _ _ hjk]
        exact hInv.lag_bound j hj l hg
    · rw [hlag]
      exact hInv.lag_bound j hj l hg
  · intro j hj
    rcases aTE_lag pkf rinv P nt alpha st k with hlag | hlag
    · rw [hlag]
      have hjk : j ≠ k := by omega
      rw [updf_ne _ _ _ _ hjk]
      exact hInv.lag_unproc j hj
    · rw [hlag]
      exact hInv.lag_unproc j hj
  · intro g
    rw [aTE_groups]
    obtain ⟨v, hv⟩ := aTE_psl pkf rinv P nt alpha st k
    rw [hv]
    by_cases hgg : g = st.ag k
    · subst hgg
      rw [updf_self, hL]
      rfl
    · rw [updf_ne _ _ _ _ hgg]
      exact hInv.dom_psl g
  · intro g
    rw [aTE_groups]
    rcases aTE_gtree pkf rinv P nt alpha st k with ⟨t, ht⟩ | ht
    · rw [ht]
      by_cases hgg : g = st.ag k
      · subst hgg
        rw [updf_self, hL]
        rfl
      · rw [updf_ne _ _ _ _ hgg]
        exact hInv.dom_gtree g
    · rw [ht]
      exact hInv.dom_gtree g
  · intro g
    rw [aTE_groups]
    obtain ⟨v, hv⟩ := aTE_genergy pkf rinv P nt alpha st k
    rw [hv]
    by_cases hgg : g = st.ag k
    · subst hgg
      rw [updf_self, hL]
      rfl
    · rw [updf_ne _ _ _ _ hgg]
      exact hInv.dom_genergy g
  · intro g
    rw [aTE_groups]
    obtain ⟨v, hv⟩ := aTE_gke pkf rinv P nt alpha st k
    rw [hv]
    by_cases hgg : g = st.ag k
    · subst hgg
      rw [updf_self, hL]
      rfl
    · rw [updf_ne _ _ _ _ hgg]
      exact hInv.dom_gke g
  · intro g
    rw [aTE_groups, aTE_com]
    exact hInv.dom_com g
  · intro g
    rw [aTE_groups]
    obtain ⟨v, hv⟩ := aTE_vcom pkf rinv P nt alpha st k
    rw [hv]
    by_cases hgg : g = st.ag k
    · subst hgg
      rw [updf_self, hL]
      rfl
    · rw [updf_ne _ _ _ _ hgg]
      exact hInv.dom_vcom g
  · intro g
    rw [aTE_groups]
    obtain ⟨v, hv⟩ := aTE_masses pkf rinv P nt alpha st k
    rw [hv]
    by_cases hgg : g = st.ag k
    · subst hgg
      rw [updf_self, hL]
      rfl
    · rw [updf_ne _ _ _ _ hgg]
      exact hInv.dom_masses g

theorem mC_groups (pkf : ℚ → ℚ → ℚ) (rinv : ℚ → ℚ) (P : PData) (nt : ℕ)
    (alpha : ℚ) (st : ScanState) (i : ℕ) (gA gB : ℤ) :
    (mergeCore pkf rinv P nt alpha st i gA gB).groups
      = updf (updf st.groups gB none) gA
          (some (((st.groups gA).getD [] ++ (st.groups gB).getD []) ++ [i])) := rfl

theorem mC_ag (pkf : ℚ → ℚ → ℚ) (rinv : ℚ → ℚ) (P : PData) (nt : ℕ)
    (alpha : ℚ) (st : ScanState) (i : ℕ) (gA gB : ℤ) :
    (mergeCore pkf rinv P nt alpha st i gA gB).ag
      = fun j => if updf st.ag i gA j = gB then gA else updf st.ag i gA j := rfl

theorem mC_lag (pkf : ℚ → ℚ → ℚ) (rinv : ℚ → ℚ) (P : PData) (nt : ℕ)
    (alpha : ℚ) (st : ScanState) (i : ℕ) (gA gB : ℤ) :
    (mergeCore pkf rinv P nt alpha st i gA gB).lag
      = updMany st.lag ((st.groups gA).getD [] ++ (st.groups gB).getD [])
          ((((st.groups gA).getD [] ++ (st.groups gB).getD []).length : ℤ)) ∨
    (mergeCore pkf rinv P nt alpha st i gA gB).lag = st.lag := by
  simp only [mergeCore]
  split
  · exact Or.inl rfl
  · exact Or.inr rfl

theorem mC_abg (pkf : ℚ → ℚ → ℚ) (rinv : ℚ → ℚ) (P : PData) (nt : ℕ)
    (alpha : ℚ) (st : ScanState) (i : ℕ) (gA gB : ℤ) :
    (mergeCore pkf rinv P nt alpha st i gA gB).abg
      = updMany st.abg ((st.groups gA).getD [] ++ (st.groups gB).getD []) gA ∨
    (mergeCore pkf rinv P nt alpha st i gA gB).abg = st.abg := by
  simp only [mergeCore]
  split
  · exact Or.inl rfl
  · exact Or.inr rfl

theorem mC_psl (pkf : ℚ → ℚ → ℚ) (rinv : ℚ → ℚ) (P : PData) (nt : ℕ)
    (alpha : ℚ) (st : ScanState) (i : ℕ) (gA gB : ℤ) :
    ∃ v : List ℕ, (mergeCore pkf rinv P nt alpha st i gA gB).psl
      = updf (updf st.psl gB none) gA (some v) := ⟨_, rfl⟩

theorem mC_gtree (pkf : ℚ → ℚ → ℚ) (rinv : ℚ → ℚ) (P : PData) (nt : ℕ)
    (alpha : ℚ) (st : ScanState) (i : ℕ) (gA gB : ℤ) :
    ∃ v : Option (List ℕ), (mergeCore pkf rinv P nt alpha st i gA gB).gtree
      = updf (updf st.gtree gB none) gA (some v) := ⟨_, rfl⟩

theorem mC_genergy (pkf : ℚ → ℚ → ℚ) (rinv : ℚ → ℚ) (P : PData) (nt : ℕ)
    (alpha : ℚ) (st : ScanState) (i : ℕ) (gA gB : ℤ) :
    ∃ v : ℚ, (mergeCore pkf rinv P nt alpha st i gA gB).genergy
      = updf (updf st.genergy gB none) gA (some v) := ⟨_, rfl⟩

theorem mC_gke (pkf : ℚ → ℚ → ℚ) (rinv : ℚ → ℚ) (P : PData) (nt : ℕ)
    (alpha : ℚ) (st : ScanState) (i : ℕ) (gA gB : ℤ) :
    ∃ v : ℚ, (mergeCore pkf rinv P nt alpha st i gA gB).gke
      = updf (updf st.gke gB none) gA (some v) := ⟨_, rfl⟩

theorem mC_com (pkf : ℚ → ℚ → ℚ) (rinv : ℚ → ℚ) (P : PData) (nt : ℕ)
    (alpha : ℚ) (st : ScanState) (i : ℕ) (gA gB : ℤ) :
    ∃ v : Pos, (mergeCore pkf rinv P nt alpha st i gA gB).com
      = updf (updf st.com gB none) gA (some v) := ⟨_, rfl⟩

theorem mC_vcom (pkf : ℚ → ℚ → ℚ) (rinv : ℚ → ℚ) (P : PData) (nt : ℕ)
    (alpha : ℚ) (st : ScanState) (i : ℕ) (gA gB : ℤ) :
    ∃ v : Pos, (mergeCore pkf rinv P nt alpha st i gA gB).vcom
      = updf (updf st.vcom gB none) gA (some v) := ⟨_, rfl⟩

theorem mC_masses (pkf : ℚ → ℚ → ℚ) (rinv : ℚ → ℚ) (P : PData) (nt : ℕ)
    (alpha : ℚ) (st : ScanState) (i : ℕ) (gA gB : ℤ) :
    ∃ v : ℚ, (mergeCore pkf rinv P nt alpha st i gA gB).masses
      = updf (updf st.masses gB none) gA (some v) := ⟨_, rfl⟩

theorem inv_mergeCore (pkf : ℚ → ℚ → ℚ) (rinv : ℚ → ℚ) (P : PData) (nt : ℕ)
    (alpha : ℚ) (st : ScanState) (k : ℕ) (gA gB : ℤ) (A B : List ℕ)
    (hInv : ScanInv P st k)
    (hA : st.groups gA = some A) (hB : st.groups gB = some B)
    (hne : gA ≠ gB) :
    ScanInv P (mergeCore pkf rinv P nt alpha st k gA gB) (k + 1) := by
  have hgA := hInv.keys_lt gA (by simp [hA])
  have hgB := hInv.keys_lt gB (by simp [hB])
  have hgdA : (st.groups gA).getD [] = A := by rw [hA]; rfl
  have hgdB : (st.groups gB).getD [] = B := by rw [hB]; rfl
  have hgroups := mC_groups pkf rinv P nt alpha st k gA gB
  rw [hgdA, hgdB] at hgroups
  have hagk : (mergeCore pkf rinv P nt alpha st k gA gB).ag k = gA := by
    rw [mC_ag]
    simp only [updf_self]
    rw [if_neg hne]
  have haglt : ∀ j, j ≠ k → (mergeCore pkf rinv P nt alpha st k gA gB).ag j
      = if st.ag j = gB then gA else st.ag j := by
    intro j hj
    rw [mC_ag]
    simp only [updf_ne st.ag k j _ hj]
  have hGA : (mergeCore pkf rinv P nt alpha st k gA gB).groups gA
      = some ((A ++ B) ++ [k]) := by
    rw [hgroups, updf_self]
  have hGB : (mergeCore pkf rinv P nt alpha st k gA gB).groups gB = none := by
    rw [hgroups, updf_ne _ _ _ _ (Ne.symm hne), updf_self]
  have hGo : ∀ g, g ≠ gA → g ≠ gB →
      (mergeCore pkf rinv P nt alpha st k gA gB).groups g = st.groups g := by
    intro g h1 h2
    rw [hgroups, updf_ne _ _ _ _ h1, updf_ne _ _ _ _ h2]
  have hkAB : k ∉ A ++ B := by
    intro hc
    rcases List.mem_append.mp hc with h | h
    · have := hInv.mem_lt _ A hA k h
      omega
    · have := hInv.mem_lt _ B hB k h
      omega
  constructor
  · intro j hj
    have hjk : j ≠ k := by omega
    rw [haglt j hjk]
    rw [hInv.ag_unproc j (by omega)]
    rw [if_neg (by omega)]
  · intro j hj
    by_cases hjk : j = k
    · subst hjk
      rw [hagk]
      exact hgA.1
    · rw [haglt j hjk]
      by_cases hb : st.ag j = gB
      · rw [if_pos hb]
        exact hgA.1
      · rw [if_neg hb]
        exact hInv.ag_proc j (by omega)
  · intro j hj
    by_cases hjk : j = k
    · subst hjk
      rw [hagk, hGA]
      rfl
    · have hj2 : j < k := by omega
      rw [haglt j hjk]
      by_cases hb : st.ag j = gB
      · rw [if_pos hb, hGA]
        rfl
      · rw [if_neg hb]
        by_cases ha : st.ag j = gA
        · rw [ha, hGA]
          rfl
        · rw [hGo _ ha hb]
          exact hInv.ag_live j hj2
  · intro g hg
    by_cases h1 : g = gA
    · subst h1
      refine ⟨hgA.1, ?_⟩
      have := hgA.2
      omega
    · rw [hgroups, updf_ne _ _ _ _ h1] at hg
      by_cases h2 : g = gB
      · subst h2
        rw [updf_self] at hg
        simp at hg
      · rw [updf_ne _ _ _ _ h2] at hg
        obtain ⟨hx, hy⟩ := hInv.keys_lt g hg
        exact ⟨hx, by omega⟩
  · intro g l hgl j hj
    by_cases h1 : g = gA
    · subst h1
      rw [hGA] at hgl
      cases hgl
      rcases List.mem_append.mp hj with h | h
      · rcases List.mem_append.mp h with h2 | h2
        · have := hInv.mem_lt _ A hA j h2
          omega
        · have := hInv.mem_lt _ B hB j h2
          omega
      · simp at h
        omega
    · by_cases h2 : g = gB
      · subst h2
        rw [hGB] at hgl
        simp at hgl
      · rw [hGo g h1 h2] at hgl
        have := hInv.mem_lt g l hgl j hj
        omega
  · intro g l hgl j hj
    by_cases h1 : g = gA
    · subst h1
      rw [hGA] at hgl
      cases hgl
      rcases List.mem_append.mp hj with h | h
      · rcases List.mem_append.mp h with h2 | h2
        · have hjlt := hInv.mem_lt _ A hA j h2
          have hjag := hInv.mem_ag _ A hA j h2
          rw [haglt j (by omega), hjag, if_neg hne]
        · have hjlt := hInv.mem_lt _ B hB j h2
          have hjag := hInv.mem_ag _ B hB j h2
          rw [haglt j (by omega), hjag, if_pos rfl]
      · simp at h
        subst h
        exact hagk
    · by_cases h2 : g = gB
      · subst h2
        rw [hGB] at hgl
        simp at hgl
      · rw [hGo g h1 h2] at hgl
        have hjlt := hInv.mem_lt g l hgl j hj
        have hjag := hInv.mem_ag g l hgl j hj
        rw [haglt j (by omega), hjag, if_neg h2]
  · intro j hj l hgl
    rcases mC_lag pkf rinv P nt alpha st k gA gB with hlag | hlag
    · rw [hgdA, hgdB] at hlag
      rw [hlag]
      by_cases hjk : j = k
      · subst hjk
        rw [hagk, hGA] at hgl
        cases hgl
        rw [updMany_not_mem _ _ _ _ hkAB]
        rw [hInv.lag_unproc j (le_refl j)]
        omega
      · have hj2 : j < k := by omega
        rw [haglt j hjk] at hgl
        by_cases hb : st.ag j = gB
        · rw [if_pos hb, hGA] at hgl
          cases hgl
          by_cases hmem : j ∈ A ++ B
          · rw [updMany_mem _ _ _ _ hmem]
            simp only [List.length_append, List.length_cons, List.length_nil]
            omega
          · rw [updMany_not_mem _ _ _ _ hmem]
            have := hInv.lag_bound j hj2 B (by rw [hb]; exact hB)
            simp only [List.length_append, List.length_cons, List.length_nil] at *
            omega
        · rw [if_neg hb] at hgl
          by_cases ha : st.ag j = gA
          · rw [ha, hGA] at hgl
            cases hgl
            by_cases hmem : j ∈ A ++ B
            · rw [updMany_mem _ _ _ _ hmem]
              simp only [List.length_append, List.length_cons, List.length_nil]
              omega
            · rw [updMany_not_mem _ _ _ _ hmem]
              have := hInv.lag_bound j hj2 A (by rw [ha]; exact hA)
              simp only [List.length_append, List.length_cons, List.length_nil] at *
              omega
          · rw [hGo _ ha hb] at hgl
            have hjA : j ∉ A := fun hc => ha (hInv.mem_ag _ A hA j hc)
            have hjB : j ∉ B := fun hc => hb (hInv.mem_ag _ B hB j hc)
            have hmem : j ∉ A ++ B := by
              intro hc
              rcases List.mem_append.mp hc with h | h
              · exact hjA h
              · exact hjB h
            rw [updMany_not_mem _ _ _ _ hmem]
            exact hInv.lag_bound j hj2 l hgl
    · rw [hlag]
      by_cases hjk : j = k
      · subst hjk
        rw [hagk, hGA] at hgl
        cases hgl
        rw [hInv.lag_unproc j (le_refl j)]
        omega
      · have hj2 : j < k := by omega
        rw [haglt j hjk] at hgl
        by_cases hb : st.ag j = gB
        · rw [if_pos hb, hGA] at hgl
          cases hgl
          have := hInv.lag_bound j hj2 B (by rw [hb]; exact hB)
          simp only [List.length_append, List.length_cons, List.length_nil] at *
          omega
        · rw [if_neg hb] at hgl
          by_cases ha : st.ag j = gA
          · rw [ha, hGA] at hgl
            cases hgl
            have := hInv.lag_bound j hj2 A (by rw [ha]; exact hA)
            simp only [List.length_append, List.length_cons, List.length_nil] at *
            omega
          · rw [hGo _ ha hb] at hgl
            exact hInv.lag_bound j hj2 l hgl
  · intro j hj
    rcases mC_lag pkf rinv P nt alpha st k gA gB with hlag | hlag
    · rw [hgdA, hgdB] at hlag
      rw [hlag]
      have hmem : j ∉ A ++ B := by
        intro hc
        rcases List.mem_append.mp hc with h | h
        · have := hInv.mem_lt _ A hA j h
          omega
        · have := hInv.mem_lt _ B hB j h
          omega
      rw [updMany_not_mem _ _ _ _ hmem]
      exact hInv.lag_unproc j (by omega)
    · rw [hlag]
      exact hInv.lag_unproc j (by omega)
  · intro g
    obtain ⟨v, hv⟩ := mC_psl pkf rinv P nt alpha st k gA gB
    rw [hv, hgroups]
    by_cases h1 : g = gA
    · subst h1
      simp [updf_self]
    · rw [updf_ne _ _ _ _ h1, updf_ne _ _ _ _ h1]
      by_cases h2 : g = gB
      · subst h2
        simp [updf_self]
      · rw [updf_ne _ _ _ _ h2, updf_ne _ _ _ _ h2]
        exact hInv.dom_psl g
  · intro g
    obtain ⟨v, hv⟩ := mC_gtree pkf rinv P nt alpha st k gA gB
    rw [hv, hgroups]
    by_cases h1 : g = gA
    · subst h1
      simp [updf_self]
    · rw [updf_ne _ _ _ _ h1, updf_ne _ _ _ _ h1]
      by_cases h2 : g = gB
      · subst h2
        simp [updf_self]
      · rw [updf_ne _ _ _ _ h2, updf_ne _ _ _ _ h2]
        exact hInv.dom_gtree g
  · intro g
    obtain ⟨v, hv⟩ := mC_genergy pkf rinv P nt alpha st k gA gB
    rw [hv, hgroups]
    by_cases h1 : g = gA
    · subst h1
      simp [updf_self]
    · rw [updf_ne _ _ _ _ h1, updf_ne _ _ _ _ h1]
      by_cases h2 : g = gB
      · subst h2
        simp [updf_self]
      · rw [updf_ne _ _ _ _ h2, updf_ne _ _ _ _ h2]
        exact hInv.dom_genergy g
  · intro g
    obtain ⟨v, hv⟩ := mC_gke pkf rinv P nt alpha st k gA gB
    rw [hv, hgroups]
    by_cases h1 : g = gA
    · subst h1
      simp [updf_self]
    · rw [updf_ne _ _ _ _ h1, updf_ne _ _ _ _ h1]
      by_cases h2 : g = gB
      · subst h2
        simp [updf_self]
      · rw [updf_ne _ _ _ _ h2, updf_ne _ _ _ _ h2]
        exact hInv.dom_gke g
  · intro g
    obtain ⟨v, hv⟩ := mC_com pkf rinv P nt alpha st k gA gB
    rw [hv, hgroups]
    by_cases h1 : g = gA
    · subst h1
      simp [updf_self]
    · rw [updf_ne _ _ _ _ h1, updf_ne _ _ _ _ h1]
      by_cases h2 : g = gB
      · subst h2
        simp [updf_self]
      · rw [updf_ne _ _ _ _ h2, updf_ne _ _ _ _ h2]
        exact hInv.dom_com g
  · intro g
    obtain ⟨v, hv⟩ := mC_vcom pkf rinv P nt alpha st k gA gB
    rw [hv, hgroups]
    by_cases h1 : g = gA
    · subst h1
      simp [updf_self]
    · rw [updf_ne _ _ _ _ h1, updf_ne _ _ _ _ h1]
      by_cases h2 : g = gB
      · subst h2
        simp [updf_self]
      · rw [updf_ne _ _ _ _ h2, updf_ne _ _ _ _ h2]
        exact hInv.dom_vcom g
  · intro g
    obtain ⟨v, hv⟩ := mC_masses pkf rinv P nt alpha st k gA gB
    rw [hv, hgroups]
    by_cases h1 : g = gA
    · subst h1
      simp [updf_self]
    · rw [updf_ne _ _ _ _ h1, updf_ne _ _ _ _ h1]
      by_cases h2 : g = gB
      · subst h2
        simp [updf_self]
      · rw [updf_ne _ _ _ _ h2, updf_ne _ _ _ _ h2]
        exact hInv.dom_masses g

theorem lag_mono_aTE (pkf : ℚ → ℚ → ℚ) (rinv : ℚ → ℚ) (P : PData) (nt : ℕ)
    (alpha : ℚ) (st : ScanState) (k : ℕ) (hlagk : st.lag k ≤ 0) :
    ∀ j, st.lag j ≤ (addToExisting pkf rinv P nt alpha st k).lag j := by
  intro j
  rcases aTE_lag pkf rinv P nt alpha st k with hlag | hlag
  · rw [hlag]
    by_cases hjk : j = k
    · subst hjk
      rw [updf_self]
      have hpos : (0 : ℤ) ≤ (((st.groups (st.ag j)).getD []).length : ℤ) := by
        positivity
      omega
    · rw [updf_ne _ _ _ _ hjk]
  · rw [hlag]

theorem lag_mono_mC (pkf : ℚ → ℚ → ℚ) (rinv : ℚ → ℚ) (P : PData) (nt : ℕ)
    (alpha : ℚ) (st : ScanState) (k : ℕ) (gA gB : ℤ) (A B : List ℕ)
    (hInv : ScanInv P st k)
    (hA : st.groups gA = some A) (hB : st.groups gB = some B) :
    ∀ j, st.lag j ≤ (mergeCore pkf rinv P nt alpha st k gA gB).lag j := by
  have hgdA : (st.groups gA).getD [] = A := by rw [hA]; rfl
  have hgdB : (st.groups gB).getD [] = B := by rw [hB]; rfl
  intro j
  rcases mC_lag pkf rinv P nt alpha st k gA gB with hlag | hlag
  · rw [hgdA, hgdB] at hlag
    rw [hlag]
    by_cases hmem : j ∈ A ++ B
    · rw [updMany_mem _ _ _ _ hmem]
      rcases List.mem_append.mp hmem with h | h
      · have hjlt := hInv.mem_lt _ A hA j h
        have hjag := hInv.mem_ag _ A hA j h
        have hb := hInv.lag_bound j hjlt A (by rw [hjag]; exact hA)
        simp only [List.length_append] at *
        omega
      · have hjlt := hInv.mem_lt _ B hB j h
        have hjag := hInv.mem_ag _ B hB j h
        have hb := hInv.lag_bound j hjlt B (by rw [hjag]; exact hB)
        simp only [List.length_append] at *
        omega
    · rw [updMany_not_mem _ _ _ _ hmem]
  · rw [hlag]

/-- Members of the sorted lower-neighbor list are strictly denser than the
current particle, hence already processed when the arrays are sorted by
descending density. -/
theorem ngbLower_mem_lt (P : PData)
    (hmono : ∀ a b : ℕ, a ≤ b → P.rho b ≤ P.rho a)
    (ngb : ℕ → List ℕ) (ngbd2 : ℕ → List ℚ) (k a : ℕ)
    (ha : a ∈ (sortPairs (((ngb k).tail.zip (ngbd2 k).tail).filter
        (fun p => phiRank P p.1 < phiRank P k))).map Prod.fst) : a < k := by
  obtain ⟨p, hp, hpa⟩ := List.mem_map.mp ha
  have hperm := List.perm_insertionSort (fun a b : ℕ × ℚ => a.2 ≤ b.2)
    (((ngb k).tail.zip (ngbd2 k).tail).filter
      (fun p => phiRank P p.1 < phiRank P k))
  have hp2 := hperm.mem_iff.mp hp
  have hcond := (List.mem_filter.mp hp2).2
  have hlt : phiRank P p.1 < phiRank P k := of_decide_eq_true hcond
  subst hpa
  by_contra hge
  push_neg at hge
  have hr := hmono k p.1 hge
  simp only [phiRank] at hlt
  linarith

/-- One scan step preserves the structural invariant and never decreases any
particle's `largest_assigned_group` entry. -/
theorem step_props (pkf : ℚ → ℚ → ℚ) (rinv : ℚ → ℚ) (P : PData) (nt : ℕ)
    (alpha : ℚ) (ngb : ℕ → List ℕ) (ngbd2 : ℕ → List ℚ) (st : ScanState)
    (k : ℕ) (hmono : ∀ a b : ℕ, a ≤ b → P.rho b ≤ P.rho a)
    (hInv : ScanInv P st k) :
    ScanInv P (scanStep pkf rinv P nt alpha ngb ngbd2 st k) (k + 1) ∧
    (∀ j, st.lag j ≤ (scanStep pkf rinv P nt alpha ngb ngbd2 st k).lag j) := by
  by_cases hs : ((ngb k).any fun s => P.n - 1 < s) = true
  · have hstep : scanStep pkf rinv P nt alpha ngb ngbd2 st k
        = mkSingleton P st k := by
      unfold scanStep
      rw [if_pos hs]
    rw [hstep]
    exact ⟨inv_mkSingleton P st k hInv, fun j => le_refl _⟩
  · rcases hlist : (sortPairs (((ngb k).tail.zip (ngbd2 k).tail).filter
        (fun p => phiRank P p.1 < phiRank P k))).map Prod.fst
      with _ | ⟨a, _ | ⟨b, rest⟩⟩
    · have hstep : scanStep pkf rinv P nt alpha ngb ngbd2 st k
          = mkSingleton P st k := by
        unfold scanStep
        rw [if_neg hs]
        simp only [hlist]
      rw [hstep]
      exact ⟨inv_mkSingleton P st k hInv, fun j => le_refl _⟩
    · have hstep : scanStep pkf rinv P nt alpha ngb ngbd2 st k
          = addToExisting pkf rinv P nt alpha (attachAssign st k (st.ag a)) k := by
        unfold scanStep
        rw [if_neg hs]
        simp only [hlist]
      rw [hstep]
      have halt : a < k := ngbLower_mem_lt P hmono ngb ngbd2 k a
        (by rw [hlist]; exact List.mem_singleton_self a)
      obtain ⟨L, hL⟩ := Option.isSome_iff_exists.mp (hInv.ag_live a halt)
      have h1 := inv_attachAssign P st k (st.ag a) L hInv hL
      have hlagk : (attachAssign st k (st.ag a)).lag k ≤ 0 := by
        have hfix : (attachAssign st k (st.ag a)).lag = st.lag := rfl
        rw [hfix, hInv.lag_unproc k (le_refl k)]
        omega
      exact ⟨inv_addToExisting pkf rinv P nt alpha _ k h1,
        fun j => lag_mono_aTE pkf rinv P nt alpha
          (attachAssign st k (st.ag a)) k hlagk j⟩
    · have hamem : a ∈ (sortPairs (((ngb k).tail.zip (ngbd2 k).tail).filter
          (fun p => phiRank P p.1 < phiRank P k))).map Prod.fst := by
        rw [hlist]
        simp
      have hbmem : b ∈ (sortPairs (((ngb k).tail.zip (ngbd2 k).tail).filter
          (fun p => phiRank P p.1 < phiRank P k))).map Prod.fst := by
        rw [hlist]
        simp
      have halt : a < k := ngbLower_mem_lt P hmono ngb ngbd2 k a hamem
      have hblt : b < k := ngbLower_mem_lt P hmono ngb ngbd2 k b hbmem
      by_cases hab : st.ag a = st.ag b
      · have hstep : scanStep pkf rinv P nt alpha ngb ngbd2 st k
            = addToExisting pkf rinv P nt alpha (attachAssign st k (st.ag a)) k := by
          unfold scanStep
          rw [if_neg hs]
          simp only [hlist]
          rw [if_pos hab]
        rw [hstep]
        obtain ⟨L, hL⟩ := Option.isSome_iff_exists.mp (hInv.ag_live a halt)
        have h1 := inv_attachAssign P st k (st.ag a) L hInv hL
        have hlagk : (attachAssign st k (st.ag a)).lag k ≤ 0 := by
          have hfix : (attachAssign st k (st.ag a)).lag = st.lag := rfl
          rw [hfix, hInv.lag_unproc k (le_refl k)]
          omega
        exact ⟨inv_addToExisting pkf rinv P nt alpha _ k h1,
          fun j => lag_mono_aTE pkf rinv P nt alpha
            (attachAssign st k (st.ag a)) k hlagk j⟩
      · obtain ⟨LA, hLA⟩ := Option.isSome_iff_exists.mp (hInv.ag_live a halt)
        obtain ⟨LB, hLB⟩ := Option.isSome_iff_exists.mp (hInv.ag_live b hblt)
        by_cases hsw : (st.masses (st.ag a)).getD 0 < (st.masses (st.ag b)).getD 0
        · have hstep : scanStep pkf rinv P nt alpha ngb ngbd2 st k
              = addToExisting pkf rinv P nt alpha
                  (mergeCore pkf rinv P nt alpha st k (st.ag b) (st.ag a)) k := by
            unfold scanStep
            rw [if_neg hs]
            simp only [hlist]
            rw [if_neg hab, if_pos hsw, if_pos hsw,
              if_neg (fun hc => hab hc.symm)]
          rw [hstep]
          have hne2 : st.ag b ≠ st.ag a := fun hc => hab hc.symm
          have hmc := inv_mergeCore pkf rinv P nt alpha st k (st.ag b) (st.ag a)
            LB LA hInv hLB hLA hne2
          have hlagk : (mergeCore pkf rinv P nt alpha st k
              (st.ag b) (st.ag a)).lag k ≤ 0 := by
            have hkAB : k ∉ (st.groups (st.ag b)).getD []
                ++ (st.groups (st.ag a)).getD [] := by
              intro hc
              rcases List.mem_append.mp hc with h | h
              · rw [hLB] at h
                have := hInv.mem_lt _ LB hLB k h
                omega
              · rw [hLA] at h
                have := hInv.mem_lt _ LA hLA k h
                omega
            rcases mC_lag pkf rinv P nt alpha st k (st.ag b) (st.ag a)
              with hlag | hlag
            · rw [hlag, updMany_not_mem _ _ _ _ hkAB,
                hInv.lag_unproc k (le_refl k)]
              omega
            · rw [hlag, hInv.lag_unproc k (le_refl k)]
              omega
          refine ⟨inv_addToExisting pkf rinv P nt alpha _ k hmc, fun j => ?_⟩
          exact le_trans
            (lag_mono_mC pkf rinv P nt alpha st k (st.ag b) (st.ag a)
              LB LA hInv hLB hLA j)
            (lag_mono_aTE pkf rinv P nt alpha
              (mergeCore pkf rinv P nt alpha st k (st.ag b) (st.ag a)) k hlagk j)
        · have hstep : scanStep pkf rinv P nt alpha ngb ngbd2 st k
              = addToExisting pkf rinv P nt alpha
                  (mergeCore pkf rinv P nt alpha st k (st.ag a) (st.ag b)) k := by
            unfold scanStep
            rw [if_neg hs]
            simp only [hlist]
            rw [if_neg hab, if_neg hsw, if_neg hsw, if_neg hab]
          rw [hstep]
          have hmc := inv_mergeCore pkf rinv P nt alpha st k (st.ag a) (st.ag b)
            LA LB hInv hLA hLB hab
          have hlagk : (mergeCore pkf rinv P nt alpha st k
              (st.ag a) (st.ag b)).lag k ≤ 0 := by
            have hkAB : k ∉ (st.groups (st.ag a)).getD []
                ++ (st.groups (st.ag b)).getD [] := by
              intro hc
              rcases List.mem_append.mp hc with h | h
              · rw [hLA] at h
                have := hInv.mem_lt _ LA hLA k h
                omega
              · rw [hLB] at h
                have := hInv.mem_lt _ LB hLB k h
                omega
            rcases mC_lag pkf rinv P nt alpha st k (st.ag a) (st.ag b)
              with hlag | hlag
            · rw [hlag, updMany_not_mem _ _ _ _ hkAB,
                hInv.lag_unproc k (le_refl k)]
              omega
            · rw [hlag, hInv.lag_unproc k (le_refl k)]
              omega
          refine ⟨inv_addToExisting pkf rinv P nt alpha _ k hmc, fun j => ?_⟩
          exact le_trans
            (lag_mono_mC pkf rinv P nt alpha st k (st.ag a) (st.ag b)
              LA LB hInv hLA hLB j)
            (lag_mono_aTE pkf rinv P nt alpha
              (mergeCore pkf rinv P nt alpha st k (st.ag a) (st.ag b)) k hlagk j)

theorem inv_upto (pkf : ℚ → ℚ → ℚ) (rinv : ℚ → ℚ) (P : PData) (nt : ℕ)
    (alpha : ℚ) (ngb : ℕ → List ℕ) (ngbd2 : ℕ → List ℚ)
    (hmono : ∀ a b : ℕ, a ≤ b → P.rho b ≤ P.rho a) (k : ℕ) :
    ScanInv P (scanUpto pkf rinv P nt alpha ngb ngbd2 k) k := by
  induction k with
  | zero => exact inv_init P
  | succ n ih =>
    exact (step_props pkf rinv P nt alpha ngb ngbd2 _ n hmono ih).1

theorem option_isSome_false_eq_none {γ : Type} (o : Option γ)
    (ho : o.isSome = false) : o = none := by
  cases o with
  | none => rfl
  | some v => simp at ho

/-- C2: at every point of the scan (arrays sorted by descending density),
every already-processed particle's `assigned_group` entry is nonnegative and
names a live group, and every dead key (in particular a group absorbed by a
merge) has all of its bookkeeping entries deleted: member list absent implies
pending list, tree, energy, kinetic energy, COM position, COM velocity and
mass entries all absent.  At `k = n` this gives the end-of-scan partition
property: no processed particle carries the unassigned sentinel. -/
theorem c2_partition_invariant (pkf : ℚ → ℚ → ℚ) (rinv : ℚ → ℚ) (P : PData)
    (nt : ℕ) (alpha : ℚ) (ngb : ℕ → List ℕ) (ngbd2 : ℕ → List ℚ)
    (hmono : ∀ a b : ℕ, a ≤ b → P.rho b ≤ P.rho a) (k : ℕ) (_hk : k ≤ P.n) :
    (∀ j, j < k →
      0 ≤ (scanUpto pkf rinv P nt alpha ngb ngbd2 k).ag j ∧
      ((scanUpto pkf rinv P nt alpha ngb ngbd2 k).groups
        ((scanUpto pkf rinv P nt alpha ngb ngbd2 k).ag j)).isSome = true) ∧
    (∀ g : ℤ, (scanUpto pkf rinv P nt alpha ngb ngbd2 k).groups g = none →
      (scanUpto pkf rinv P nt alpha ngb ngbd2 k).psl g = none ∧
      (scanUpto pkf rinv P nt alpha ngb ngbd2 k).gtree g = none ∧
      (scanUpto pkf rinv P nt alpha ngb ngbd2 k).genergy g = none ∧
      (scanUpto pkf rinv P nt alpha ngb ngbd2 k).gke g = none ∧
      (scanUpto pkf rinv P nt alpha ngb ngbd2 k).com g = none ∧
      (scanUpto pkf rinv P nt alpha ngb ngbd2 k).vcom g = none ∧
      (scanUpto pkf rinv P nt alpha ngb ngbd2 k).masses g = none) := by
  have hInv := inv_upto pkf rinv P nt alpha ngb ngbd2 hmono k
  constructor
  · intro j hj
    exact ⟨hInv.ag_proc j hj, hInv.ag_live j hj⟩
  · intro g hg
    have hgs : ((scanUpto pkf rinv P nt alpha ngb ngbd2 k).groups g).isSome
        = false := by rw [hg]; rfl
    refine ⟨option_isSome_false_eq_none _ (by rw [hInv.dom_psl g, hgs]),
      option_isSome_false_eq_none _ (by rw [hInv.dom_gtree g, hgs]),
      option_isSome_false_eq_none _ (by rw [hInv.dom_genergy g, hgs]),
      option_isSome_false_eq_none _ (by rw [hInv.dom_gke g, hgs]),
      option_isSome_false_eq_none _ (by rw [hInv.dom_com g, hgs]),
      option_isSome_false_eq_none _ (by rw [hInv.dom_vcom g, hgs]),
      option_isSome_false_eq_none _ (by rw [hInv.dom_masses g, hgs])⟩

theorem c2_partition_invariant_witness :
    0 ≤ (scanUpto kernelZero rinvEx dataP2 10000 2 (knnRow dataP2 2 9)
        (knnD2Row dataP2 2 9) 2).ag 1 ∧
    ((scanUpto kernelZero rinvEx dataP2 10000 2 (knnRow dataP2 2 9)
        (knnD2Row dataP2 2 9) 2).groups
      ((scanUpto kernelZero rinvEx dataP2 10000 2 (knnRow dataP2 2 9)
        (knnD2Row dataP2 2 9) 2).ag 1)).isSome = true := by
  refine (c2_partition_invariant kernelZero rinvEx dataP2 10000 2
    (knnRow dataP2 2 9) (knnD2Row dataP2 2 9) ?_ 2 ?_).1 1 (by norm_num)
  · intro a b hab
    simp only [dataP2]
    split_ifs <;> first | omega | norm_num
  · norm_num [dataP2]

/-- C5: `largest_assigned_group` is monotone per particle across the scan
(arrays sorted by descending density): for any two step counts `k1 <= k2` and
any particle `j`, the entry after `k2` steps is at least the entry after `k1`
steps. -/
theorem c5_lag_monotone (pkf : ℚ → ℚ → ℚ) (rinv : ℚ → ℚ) (P : PData)
    (nt : ℕ) (alpha : ℚ) (ngb : ℕ → List ℕ) (ngbd2 : ℕ → List ℚ)
    (hmono : ∀ a b : ℕ, a ≤ b → P.rho b ≤ P.rho a)
    (k1 k2 : ℕ) (hk : k1 ≤ k2) (j : ℕ) :
    (scanUpto pkf rinv P nt alpha ngb ngbd2 k1).lag j
      ≤ (scanUpto pkf rinv P nt alpha ngb ngbd2 k2).lag j := by
  induction k2 with
  | zero =>
    have hz : k1 = 0 := by omega
    subst hz
    exact le_refl _
  | succ n ih =>
    by_cases hk1 : k1 = n + 1
    · subst hk1
      exact le_refl _
    · have hle : k1 ≤ n := by omega
      have h1 := ih hle
      have h2 := (step_props pkf rinv P nt alpha ngb ngbd2 _ n hmono
        (inv_upto pkf rinv P nt alpha ngb ngbd2 hmono n)).2 j
      exact le_trans h1 h2

theorem c5_lag_monotone_witness :
    (scanUpto kernelZero rinvEx dataP2 10000 2 (knnRow dataP2 2 9)
        (knnD2Row dataP2 2 9) 1).lag 0
      ≤ (scanUpto kernelZero rinvEx dataP2 10000 2 (knnRow dataP2 2 9)
        (knnD2Row dataP2 2 9) 2).lag 0 := by
  refine c5_lag_monotone kernelZero rinvEx dataP2 10000 2
    (knnRow dataP2 2 9) (knnD2Row dataP2 2 9) ?_ 1 2 (by norm_num) 0
  intro a b hab
  simp only [dataP2]
  split_ifs <;> first | omega | norm_num
